import Mathlib

/-! # hugo-helper `stats`: a verification development

Shallow embedding of `src/stats/main.go`.

Modelling conventions.

* Go `string` values are Lean `String`s; Go `int` values are `Int` (the counts
  and limits handled here stay far below `2^63`, no arithmetic can wrap).
* A Go slice is a `List`; a `nil` slice and an empty slice are both `[]`.
* A run-time panic is an `Except.error` carrying a `Fault`.
* The order in which `range` walks a Go map is chosen by the runtime, and
  `sort.Slice` is not stable.  Both are inputs of the model: `rangeOrder`
  gives the order in which the entries of a map are visited, `sortSlice`
  is the sorting routine.  What the language guarantees about them is stated
  by `RangeContract` and `SortContract`.
* `json.Unmarshal` and the file system are inputs of the model as well.
-/

namespace Stats

/-! ## Faults -/

/-- Run-time panics the program can raise. -/
inductive Fault where
  /-- `make([]T, 0, n)` with a negative capacity. -/
  | makesliceCap
  /-- Indexing a slice at or past its length. -/
  | indexOutOfRange
  deriving DecidableEq, Repr

/-! ## `type JSON struct { Name string; Value int }` -/

/-- One ranked entry. -/
structure JSON where
  Name : String
  Value : Int
  deriving DecidableEq, Repr

/-! ## Go maps `map[string]int` -/

/-- A `map[string]int`: the bindings, one per key. -/
abbrev CountMap := List (String × Int)

/-- The lookup `v, ok := m[key]`. -/
def mapGet : CountMap → String → Option Int
  | [], _ => none
  | (k, v) :: m, key => if k = key then some v else mapGet m key

/-- The assignment `m[key] = val`. -/
def mapPut : CountMap → String → Int → CountMap
  | [], key, val => [(key, val)]
  | (k, v) :: m, key, val => if k = key then (k, val) :: m else (k, v) :: mapPut m key val

/-- Body of the counting loop of `arrayStats`:
`if _, ok := m[key]; ok { m[key]++ } else { m[key] = 1 }`. -/
def countStep (m : CountMap) (key : String) : CountMap :=
  match mapGet m key with
  | some v => mapPut m key (v + 1)
  | none => mapPut m key 1

/-- The map `m` of `arrayStats` after `for _, key := range keys`. -/
def countKeys (keys : List String) : CountMap :=
  keys.foldl countStep []

/-! ## `sort.Slice` -/

/-- The comparison handed to `sort.Slice` by `arrayStats`:
`keyCounts[i].Value > keyCounts[j].Value`. -/
def lessByValue (a b : JSON) : Bool :=
  decide (a.Value > b.Value)

/-- Inner loop of Go's insertion sort,
`for j := i; j > a && less(j, j-1); j-- { swap(j, j-1) }`:
the element `x` travels left over the already sorted prefix, which is given
here last element first. -/
def bubbleLeft {α : Type} (less : α → α → Bool) (x : α) : List α → List α
  | [] => [x]
  | p :: rest => if less x p then p :: bubbleLeft less x rest else x :: p :: rest

/-- Go's `insertionSort`, the routine `sort.Slice` runs on short slices. -/
def insertionSort {α : Type} (less : α → α → Bool) (l : List α) : List α :=
  (l.foldl (fun sortedRev x => bubbleLeft less x sortedRev) []).reverse

/-! ## Contracts of the runtime inputs -/

/-- What Go guarantees of `for key, val := range m`: every binding is visited
exactly once, in an unspecified order. -/
def RangeContract (rangeOrder : CountMap → List (String × Int)) : Prop :=
  ∀ m : CountMap, (rangeOrder m).Perm m

/-- What `sort.Slice(x, less)` guarantees for the comparison of `arrayStats`:
the slice is rearranged, and afterwards no later element is `less` than an
earlier one.  Elements that compare equal may end in any order. -/
def SortContract (sortSlice : (JSON → JSON → Bool) → List JSON → List JSON) : Prop :=
  ∀ l : List JSON, (sortSlice lessByValue l).Perm l ∧
    (sortSlice lessByValue l).Pairwise (fun a b => lessByValue b a = false)

/-! ## `arrayStats` and `toJSON` -/

/-- The slice `keyCounts` of `arrayStats` before sorting: one entry per binding
of the map, in the order `range` visits them. -/
def keyCountsOf (rangeOrder : CountMap → List (String × Int)) (keys : List String) :
    List JSON :=
  (rangeOrder (countKeys keys)).map (fun kv => JSON.mk kv.1 kv.2)

/-- Embedding of `func arrayStats(keys []string, limit int) []JSON`. -/
def arrayStats (rangeOrder : CountMap → List (String × Int))
    (sortSlice : (JSON → JSON → Bool) → List JSON → List JSON)
    (keys : List String) (limit : Int) : Except Fault (List JSON) :=
  let keyCounts := sortSlice lessByValue (keyCountsOf rangeOrder keys)
  -- retCounts := make([]JSON, 0, limit)
  if limit < 0 then
    Except.error Fault.makesliceCap
  else
    -- for i := 0; i < len(keyCounts) && i < limit; i++ { retCounts = append(retCounts, keyCounts[i]) }
    Except.ok (keyCounts.take limit.toNat)

/-- Embedding of `func toJSON(data []string, limit int) []JSON`. -/
def toJSON (rangeOrder : CountMap → List (String × Int))
    (sortSlice : (JSON → JSON → Bool) → List JSON → List JSON)
    (data : List String) (limit : Int) : Except Fault (List JSON) :=
  match arrayStats rangeOrder sortSlice data limit with
  | Except.error e => Except.error e
  | Except.ok topN => Except.ok (topN.foldl (fun result num => result ++ [JSON.mk num.Name num.Value]) [])

/-! ## Sidecar records -/

/-- Embedding of `type Category struct { Name string; Slug string }`. -/
structure Category where
  Name : String
  Slug : String
  deriving DecidableEq, Repr

/-- Embedding of `type Meta struct { Date string; Tags []string; Categories []Category }`. -/
structure Meta where
  Date : String
  Tags : List String
  Categories : List Category
  deriving DecidableEq, Repr

/-- Embedding of `func readFile(filePath string) []byte`; `fs` is the file
system seen through `ioutil.ReadFile`, `none` being a read error. -/
def readFile (fs : String → Option (List UInt8)) (filePath : String) : List UInt8 :=
  match fs filePath with
  | none => []
  | some content => content

/-- The indexing `xs[i]` of a slice, which panics out of range. -/
def index {α : Type} (xs : List α) (i : Nat) : Except Fault α :=
  match xs[i]? with
  | some x => Except.ok x
  | none => Except.error Fault.indexOutOfRange

/-! ## The regular expressions of the program -/

/-- The class `\s` of Go regular expressions: `[\t\n\f\r ]`. -/
def isSpaceClass (c : Char) : Bool :=
  c = ' ' || c = '\t' || c = '\n' || c = '\x0c' || c = '\r'

/-- The class `\d` of Go regular expressions: `[0-9]`. -/
def isDigitClass (c : Char) : Bool :=
  decide ('0' ≤ c) && decide (c ≤ '9')

/-- Puts `c` in front of the first piece of a split. -/
def consHead (c : Char) : List (List Char) → List (List Char)
  | [] => [[c]]
  | piece :: pieces => (c :: piece) :: pieces

/-- Pieces of `regexp.MustCompile(sep+).Split(s, -1)` for a character class
`sep`: the text is cut at every maximal run of separators; `inRun` tells
that the previous character was a separator. -/
def splitRuns (sep : Char → Bool) : Bool → List Char → List (List Char)
  | _, [] => [[]]
  | inRun, c :: cs =>
    if sep c then
      if inRun then splitRuns sep true cs else [] :: splitRuns sep true cs
    else consHead c (splitRuns sep false cs)

/-- Pieces of `regexp.MustCompile(sep).Split(s, -1)` for a one-character
pattern: the text is cut at every occurrence of `sep`. -/
def splitEach (sep : Char) : List Char → List (List Char)
  | [] => [[]]
  | c :: cs => if c = sep then [] :: splitEach sep cs else consHead c (splitEach sep cs)

/-- The call `regexp.MustCompile("\\s+").Split(s, -1)`. -/
def splitWhitespace (s : String) : List String :=
  (splitRuns isSpaceClass false s.toList).map String.mk

/-- The call `regexp.MustCompile("\\" + sep).Split(s, -1)` with `sep` one of `-`, `:`. -/
def splitOnChar (sep : Char) (s : String) : List String :=
  (splitEach sep s.toList).map String.mk

/-- The call `string(regexp.MustCompile("^\\d{4}-\\d{2}").Find([]byte(date)))`:
the leading seven characters when they are four digits, `-`, two digits, and
the empty string when there is no match. -/
def findYearMonth (date : String) : String :=
  match date.toList with
  | y1 :: y2 :: y3 :: y4 :: dash :: m1 :: m2 :: _ =>
    if isDigitClass y1 && isDigitClass y2 && isDigitClass y3 && isDigitClass y4 &&
        dash = '-' && isDigitClass m1 && isDigitClass m2 then
      String.mk [y1, y2, y3, y4, dash, m1, m2]
    else ""
  | _ => ""

/-! ## `extractMeta` and `extractDate` -/

/-- Embedding of `func extractMeta(fileData []byte)`; `unmarshal` is
`json.Unmarshal` into a `Meta`, `none` being a parse error.  The result is
`(Status, date, time, Tags, Categories)`. -/
def extractMeta (unmarshal : List UInt8 → Option Meta) (fileData : List UInt8) :
    Except Fault (Bool × String × String × List String × List String) :=
  match unmarshal fileData with
  | none => Except.ok (false, "", "", [], [])
  | some metaRec => do
    let dateParts := splitWhitespace metaRec.Date
    let date ← index dateParts 0
    let time ← index dateParts 1
    let categories := metaRec.Categories.foldl (fun cs c => cs ++ [c.Name]) []
    pure (true, date, time, metaRec.Tags, categories)

/-- Embedding of `func extractDate(date string, time string)`; the result is
`(year, month, day, hour, yearAndMonth)`. -/
def extractDate (date time : String) :
    Except Fault (String × String × String × String × String) := do
  let dateParts := splitOnChar '-' date
  let year ← index dateParts 0
  let month ← index dateParts 1
  let day ← index dateParts 2
  let yearAndMonth := findYearMonth date
  let timeParts := splitOnChar ':' time
  let hour ← index timeParts 0
  pure (year, month, day, hour, yearAndMonth)

/-! ## `time.Parse("2006-01-02", s)` and `Weekday` -/

/-- Value of a decimal digit. -/
def digitVal (c : Char) : Nat := c.toNat - '0'.toNat

/-- The predicate `isLeap` of package `time`. -/
def isLeap (year : Nat) : Bool :=
  year % 4 = 0 && (year % 100 ≠ 0 || year % 400 = 0)

/-- The table `daysBefore` of package `time`: days of a non-leap year before
each month. -/
def daysBefore : List Nat := [0, 31, 59, 90, 120, 151, 181, 212, 243, 273, 304, 334, 365]

/-- The function `daysIn` of package `time`. -/
def daysIn (month year : Nat) : Nat :=
  if month = 2 && isLeap year then 29
  else daysBefore.getD month 0 - daysBefore.getD (month - 1) 0

/-- Parsing with the layout `2006-01-02`: four digits, `-`, two digits, `-`,
two digits and nothing more, the month in `1..12` and the day in
`1..daysIn month year`; `none` is the parse error. -/
def parseDate (value : String) : Option (Nat × Nat × Nat) :=
  match value.toList with
  | [y1, y2, y3, y4, dash1, m1, m2, dash2, d1, d2] =>
    if isDigitClass y1 && isDigitClass y2 && isDigitClass y3 && isDigitClass y4 &&
        dash1 = '-' && isDigitClass m1 && isDigitClass m2 &&
        dash2 = '-' && isDigitClass d1 && isDigitClass d2 then
      let year := digitVal y1 * 1000 + digitVal y2 * 100 + digitVal y3 * 10 + digitVal y4
      let month := digitVal m1 * 10 + digitVal m2
      let day := digitVal d1 * 10 + digitVal d2
      if month = 0 || 12 < month then none
      else if day < 1 || daysIn month year < day then none
      else some (year, month, day)
    else none
  | _ => none

/-- The function `daysSinceEpoch` of package `time`: days from the absolute
epoch (1 January of year -292277022399) to 1 January of `year`. -/
def daysSinceEpoch (year : Nat) : Nat :=
  let y := year + 292277022399
  let n400 := y / 400
  let y1 := y - 400 * n400
  let n100 := y1 / 100
  let y2 := y1 - 100 * n100
  let n4 := y2 / 4
  let y3 := y2 - 4 * n4
  146097 * n400 + 36524 * n100 + 1461 * n4 + 365 * y3

/-- Days from the absolute epoch to the given date, as `time.Date` counts them. -/
def absDays (year month day : Nat) : Nat :=
  daysSinceEpoch year + daysBefore.getD (month - 1) 0 +
    (if isLeap year && 3 ≤ month then 1 else 0) + (day - 1)

/-- The method `Weekday` of `time.Time` (`0` is Sunday): the absolute epoch
was a Monday. -/
def weekdayOf (year month day : Nat) : Nat :=
  (absDays year month day + 1) % 7

/-- The method `String` of `time.Weekday`. -/
def weekdayName (d : Nat) : String :=
  ["Sunday", "Monday", "Tuesday", "Wednesday", "Thursday", "Friday", "Saturday"].getD d ""

/-- The two lines `t, _ := time.Parse("2006-01-02", dateStr)` and
`t.Weekday().String()` of `concat`: on a parse error `t` is the zero time,
1 January of year 1. -/
def parsedWeekdayName (dateStr : String) : String :=
  match parseDate dateStr with
  | some (year, month, day) => weekdayName (weekdayOf year month day)
  | none => weekdayName (weekdayOf 1 1 1)

/-- Embedding of `var WeekMap = map[string]string{...}`. -/
def WeekMap : List (String × String) :=
  [("Monday", "周一"), ("Tuesday", "周二"), ("Wednesday", "周三"), ("Thursday", "周四"),
   ("Friday", "周五"), ("Saturday", "周六"), ("Sunday", "周日")]

/-- The lookup `WeekMap[name]`; a missing key gives the empty string. -/
def weekMapGet (name : String) : String :=
  (WeekMap.lookup name).getD ""

/-! ## `concat` -/

/-- The eight named results of `concat`. -/
structure Facets where
  tags : List String
  categories : List String
  years : List String
  months : List String
  days : List String
  hours : List String
  yearMonths : List String
  weeks : List String
  deriving DecidableEq, Repr

/-- The named results of `concat` on entry: eight `nil` slices. -/
def Facets.empty : Facets := ⟨[], [], [], [], [], [], [], []⟩

/-- The loop `for i := 0; i < n; i++ { xs = append(xs, xs[i]) }` with
`n := len(xs)` taken before the loop. -/
def appendOwn (xs : List String) : List String :=
  (List.range xs.length).foldl (fun acc i => acc ++ (acc[i]?).toList) xs

/-- One turn of the loop of `concat`.  The statement
`isOk, dateStr, timeStr, tags, categories := extractMeta(metaData)` declares
`tags` and `categories` anew inside the loop body; the appends to them reach
these loop-local slices, which are returned here next to the named results. -/
def concatBody (fs : String → Option (List UInt8)) (unmarshal : List UInt8 → Option Meta)
    (acc : Facets) (metaPath : String) :
    Except Fault (Facets × List String × List String) := do
  let metaData := readFile fs metaPath
  let (isOk, dateStr, timeStr, tags, categories) ← extractMeta unmarshal metaData
  if isOk then
    let (year, month, day, hour, yearAndMonth) ← extractDate dateStr timeStr
    let week := weekMapGet (parsedWeekdayName dateStr)
    let acc1 : Facets :=
      { tags := acc.tags
        categories := acc.categories
        years := acc.years ++ [year]
        months := acc.months ++ [month]
        days := acc.days ++ [day]
        hours := acc.hours ++ [hour]
        yearMonths := acc.yearMonths ++ [yearAndMonth]
        weeks := acc.weeks ++ [week] }
    pure (acc1, appendOwn tags, appendOwn categories)
  else
    pure (acc, tags, categories)

/-- One turn of the loop of `concat` as seen from the named results: the
loop-local slices go out of scope at the end of the body. -/
def concatStep (fs : String → Option (List UInt8)) (unmarshal : List UInt8 → Option Meta)
    (acc : Facets) (metaPath : String) : Except Fault Facets :=
  match concatBody fs unmarshal acc metaPath with
  | Except.error e => Except.error e
  | Except.ok (acc1, _, _) => Except.ok acc1

/-- Embedding of `func concat(metaFiles *[]string)`. -/
def concat (fs : String → Option (List UInt8)) (unmarshal : List UInt8 → Option Meta)
    (metaFiles : List String) : Except Fault Facets :=
  metaFiles.foldlM (concatStep fs unmarshal) Facets.empty

/-! ## Sample sidecars -/

/-- Bytes of an ASCII text. -/
def asciiBytes (s : String) : List UInt8 :=
  s.toList.map (fun c => c.toNat.toUInt8)

/-- A file system given by a table of paths and contents. -/
def tableFS (table : List (String × String)) (path : String) : Option (List UInt8) :=
  (table.lookup path).map asciiBytes

/-- The decoding `json.Unmarshal` performs on the texts of a table of JSON
texts and their decoded records; every other input is a parse error. -/
def tableUnmarshal (table : List (String × Meta)) (fileData : List UInt8) : Option Meta :=
  (table.find? (fun entry => asciiBytes entry.1 == fileData)).map Prod.snd

/-- JSON text of a sidecar with a date and one tag. -/
def sidecarText (date tag : String) : String :=
  "\x7b\"date\":\"" ++ date ++ "\",\"tag\":[\"" ++ tag ++ "\"]\x7d"

/-- JSON text of a sidecar with one tag and no date field. -/
def undatedText (tag : String) : String :=
  "\x7b\"tag\":[\"" ++ tag ++ "\"]\x7d"

/-- Sample JSON texts with the records `json.Unmarshal` decodes them to. -/
def sampleTexts : List (String × Meta) :=
  [(sidecarText "2021-01-04 10:20:30" "a", ⟨"2021-01-04 10:20:30", ["a"], []⟩),
   (sidecarText "2021-01-05 11:20:30" "a", ⟨"2021-01-05 11:20:30", ["a"], []⟩),
   (sidecarText "2021-02-06 12:20:30" "b", ⟨"2021-02-06 12:20:30", ["b"], []⟩),
   (sidecarText "2021-02-07 13:20:30" "c", ⟨"2021-02-07 13:20:30", ["c"], []⟩),
   (sidecarText "2022-03-08 14:20:30" "c", ⟨"2022-03-08 14:20:30", ["c"], []⟩),
   (sidecarText "2022-03-09 15:20:30" "c", ⟨"2022-03-09 15:20:30", ["c"], []⟩),
   (sidecarText "2021-01-15 10:20:30 +0800" "a", ⟨"2021-01-15 10:20:30 +0800", ["a"], []⟩),
   (undatedText "a", ⟨"", ["a"], []⟩)]

/-- Sample archive: six dated sidecars, a file that is not JSON, a sidecar
whose date has a third part, and a sidecar without date.  The path `p7.json`
does not exist. -/
def sampleFS : List (String × String) :=
  [("p1.json", sidecarText "2021-01-04 10:20:30" "a"),
   ("p2.json", sidecarText "2021-01-05 11:20:30" "a"),
   ("p3.json", sidecarText "2021-02-06 12:20:30" "b"),
   ("p4.json", sidecarText "2021-02-07 13:20:30" "c"),
   ("p5.json", sidecarText "2022-03-08 14:20:30" "c"),
   ("p6.json", sidecarText "2022-03-09 15:20:30" "c"),
   ("p8.json", "not json"),
   ("p9.json", sidecarText "2021-01-15 10:20:30 +0800" "a"),
   ("p10.json", undatedText "a")]

/-- Sample JSON texts whose dates are out of the usual shape, with the records
`json.Unmarshal` decodes them to. -/
def dateTexts : List (String × Meta) :=
  [(sidecarText "2021-01-15-x 10:20:30" "a", ⟨"2021-01-15-x 10:20:30", ["a"], []⟩),
   (sidecarText "2021-1 10:20:30" "a", ⟨"2021-1 10:20:30", ["a"], []⟩),
   (sidecarText "21-01-15 10:20:30" "a", ⟨"21-01-15 10:20:30", ["a"], []⟩),
   (sidecarText "2021-02-30 10:20:30" "a", ⟨"2021-02-30 10:20:30", ["a"], []⟩),
   (sidecarText "2021-13-01 10:20:30" "a", ⟨"2021-13-01 10:20:30", ["a"], []⟩),
   (sidecarText "2021-01-04 10:20:30" "a", ⟨"2021-01-04 10:20:30", ["a"], []⟩)]

/-- Sample archive holding the sidecars of `dateTexts`. -/
def dateFS : List (String × String) :=
  [("d1.json", sidecarText "2021-01-15-x 10:20:30" "a"),
   ("d2.json", sidecarText "2021-1 10:20:30" "a"),
   ("d3.json", sidecarText "21-01-15 10:20:30" "a"),
   ("d4.json", sidecarText "2021-02-30 10:20:30" "a"),
   ("d5.json", sidecarText "2021-13-01 10:20:30" "a"),
   ("d6.json", sidecarText "2021-01-04 10:20:30" "a")]

/-- The part of a time string before its first `:`. -/
def hourOf (time : String) : String :=
  String.mk (time.toList.takeWhile (fun c => c != ':'))

/-- The shape `YYYY-MM`: four digits, `-`, two digits. -/
def yearMonthShape (cs : List Char) : Prop :=
  ∃ y1 y2 y3 y4 m1 m2 : Char, cs = [y1, y2, y3, y4, '-', m1, m2] ∧
    isDigitClass y1 = true ∧ isDigitClass y2 = true ∧ isDigitClass y3 = true ∧
    isDigitClass y4 = true ∧ isDigitClass m1 = true ∧ isDigitClass m2 = true

/-! ## The calendar, day by day -/

/-- Leap years of the Gregorian calendar: the years divisible by 4 and not by
100, and the years divisible by 400. -/
def specLeap (year : Nat) : Bool :=
  (year % 4 = 0 && year % 100 != 0) || year % 400 = 0

/-- Number of days of a month of the Gregorian calendar. -/
def specMonthLength (year month : Nat) : Nat :=
  match month with
  | 1 => 31
  | 2 => if specLeap year then 29 else 28
  | 3 => 31
  | 4 => 30
  | 5 => 31
  | 6 => 30
  | 7 => 31
  | 8 => 31
  | 9 => 30
  | 10 => 31
  | 11 => 30
  | 12 => 31
  | _ => 0

/-- Number of days of a year of the Gregorian calendar. -/
def specYearLength (year : Nat) : Nat :=
  if specLeap year then 366 else 365

/-- Days from 1 January of year 0 to 1 January of `year`, counted year by year. -/
def specDaysBeforeYear : Nat → Nat
  | 0 => 0
  | year + 1 => specDaysBeforeYear year + specYearLength year

/-- Days of `year` before the first day of `month`, counted month by month. -/
def specDaysBeforeMonth (year month : Nat) : Nat :=
  ((List.range month).map (specMonthLength year)).sum

/-- Day of the week of a calendar date, `0` being Sunday: the days are counted
from 1 January of year 0, a Saturday, and the day of the week advances by one
with every day. -/
def specWeekday (year month day : Nat) : Nat :=
  (specDaysBeforeYear year + specDaysBeforeMonth year month + day + 5) % 7

/-- A valid calendar date with a four-digit year. -/
def validDate (year month day : Nat) : Prop :=
  year ≤ 9999 ∧ 1 ≤ month ∧ month ≤ 12 ∧ 1 ≤ day ∧ day ≤ specMonthLength year month

/-- The decimal digit `n` as a character. -/
def digitChar (n : Nat) : Char := Char.ofNat (48 + n)

/-- The text `YYYY-MM-DD` of a date. -/
def formatDate (year month day : Nat) : String :=
  String.mk [digitChar (year / 1000), digitChar (year / 100 % 10), digitChar (year / 10 % 10),
    digitChar (year % 10), '-', digitChar (month / 10), digitChar (month % 10), '-',
    digitChar (day / 10), digitChar (day % 10)]

/-- The texts `YYYY-MM-DD` of the valid calendar dates. -/
def isCalendarDateText (s : String) : Prop :=
  ∃ year month day : Nat, validDate year month day ∧ s = formatDate year month day

/-! ## `pickArticlefile` -/

/-- The test `strings.HasPrefix(text, pattern)` on characters. -/
def startsWith : List Char → List Char → Bool
  | [], _ => true
  | _ :: _, [] => false
  | p :: ps, c :: cs => p = c && startsWith ps cs

/-- The search of `strings.Contains`: `substr` starts at some position of the text. -/
def containsChars (substr : List Char) : List Char → Bool
  | [] => startsWith substr []
  | c :: cs => startsWith substr (c :: cs) || containsChars substr cs

/-- The call `strings.Contains(s, substr)`. -/
def stringsContains (s substr : String) : Bool :=
  containsChars substr.toList s.toList

/-- The loop of `filepath.Ext`, from the last character backwards:
`for i := len(path) - 1; i >= 0 && path[i] != '/'; i-- { if path[i] == '.' { return path[i:] } }`;
`suffix` is the part of the path already passed. -/
def extFrom : List Char → List Char → List Char
  | [], _ => []
  | c :: before, suffix =>
    if c = '/' then []
    else if c = '.' then c :: suffix
    else extFrom before (c :: suffix)

/-- The call `filepath.Ext(path)` with `/` as path separator. -/
def filepathExt (path : String) : String :=
  String.mk (extFrom path.toList.reverse [])

/-- A match of the pattern `/\d{4}\/\d{2}\/\d{2}\/` at the start of the text. -/
def archiveAt : List Char → Bool
  | s1 :: y1 :: y2 :: y3 :: y4 :: s2 :: m1 :: m2 :: s3 :: d1 :: d2 :: s4 :: _ =>
    s1 = '/' && isDigitClass y1 && isDigitClass y2 && isDigitClass y3 && isDigitClass y4 &&
      s2 = '/' && isDigitClass m1 && isDigitClass m2 &&
      s3 = '/' && isDigitClass d1 && isDigitClass d2 && s4 = '/'
  | _ => false

/-- The call `checkArchiveStruct.Match([]byte(path))`: the pattern matches at
some position of the text. -/
def matchArchive : List Char → Bool
  | [] => false
  | c :: cs => archiveAt (c :: cs) || matchArchive cs

/-- Embedding of the callback returned by `pickArticlefile(files, denyList)`,
called by `filepath.Walk` on `path` with the traversal error `err`.  The result
is the slice `*files` after the call; `none` stands for the exit of the
process in `check(err)`. -/
def pickArticlefile (files denyList : List String) (path : String) (err : Option String) :
    Option (List String) :=
  match err with
  | some _ => none
  | none =>
    if filepathExt path != ".md" then some files
    else if denyList.any (fun denyItem => stringsContains path denyItem) then some files
    else if !matchArchive path.toList then some files
    else some (files ++ [path])

/-- The text `sub` occurs in the text `s`. -/
def hasSubstring (s sub : String) : Prop :=
  ∃ pre post : List Char, s.toList = pre ++ sub.toList ++ post

/-- The path contains a segment `/dddd/dd/dd/`, `d` a digit. -/
def hasArchiveSegment (path : String) : Prop :=
  ∃ (pre post : List Char) (y1 y2 y3 y4 m1 m2 d1 d2 : Char),
    isDigitClass y1 = true ∧ isDigitClass y2 = true ∧ isDigitClass y3 = true ∧
    isDigitClass y4 = true ∧ isDigitClass m1 = true ∧ isDigitClass m2 = true ∧
    isDigitClass d1 = true ∧ isDigitClass d2 = true ∧
    path.toList = pre ++ ['/', y1, y2, y3, y4, '/', m1, m2, '/', d1, d2, '/'] ++ post

/-- The denylist of `readMetaFiles`. -/
def metaDenyList : List String :=
  [".DS_Store", ".git", ".gitignore", ".gitea", "README.json", "README.md"]

/-! ## `calcTopN` -/

/-- Embedding of the local `type Response struct` of `calcTopN`, without its
time stamp. -/
structure Response where
  Tag : List JSON
  Category : List JSON
  Year : List JSON
  Month : List JSON
  Day : List JSON
  Hour : List JSON
  Week : List JSON
  YearAndMonth : List JSON
  deriving DecidableEq, Repr

/-- Embedding of `func calcTopN(tags, categories, years, months, days, hours,
yearMonths, weeks *[]string)`; `curYear` is `time.Now().Year()`.  The result is
the `Response` value that the function hands to `json.Marshal`. -/
def calcTopN (rangeOrder : CountMap → List (String × Int))
    (sortSlice : (JSON → JSON → Bool) → List JSON → List JSON) (curYear : Int)
    (tags categories years months days hours yearMonths weeks : List String) :
    Except Fault Response := do
  let repeatYear := curYear - 2007
  let byTag ← toJSON rangeOrder sortSlice tags 30
  let byCategory ← toJSON rangeOrder sortSlice categories 10
  let byYear ← toJSON rangeOrder sortSlice years repeatYear
  let byMonth ← toJSON rangeOrder sortSlice months 12
  let byDay ← toJSON rangeOrder sortSlice days 31
  let byHour ← toJSON rangeOrder sortSlice hours 24
  let byWeek ← toJSON rangeOrder sortSlice weeks 7
  let byYearAndMonth ← toJSON rangeOrder sortSlice yearMonths (repeatYear * 12)
  pure
    { Tag := byTag
      Category := byCategory
      Year := byYear
      Month := byMonth
      Day := byDay
      Hour := byHour
      Week := byWeek
      YearAndMonth := byYearAndMonth }

/-! ## `relativeMetaFile` -/

/-- The loop of `filepath.Split`, from the last character backwards:
`for i >= 0 && path[i] != '/' { i-- }`, then `path[:i+1], path[i+1:]`;
`file` is the part of the path already passed. -/
def splitFrom : List Char → List Char → List Char × List Char
  | [], file => ([], file)
  | c :: before, file =>
    if c = '/' then ((c :: before).reverse, file) else splitFrom before (c :: file)

/-- The call `filepath.Split(path)` with `/` as path separator. -/
def filepathSplit (path : String) : String × String :=
  let parts := splitFrom path.toList.reverse []
  (String.mk parts.1, String.mk parts.2)

/-- The call `strings.TrimSuffix(s, suffix)`. -/
def trimSuffix (s suffix : String) : String :=
  let n := s.toList.length - suffix.toList.length
  if suffix.toList.length ≤ s.toList.length ∧ s.toList.drop n = suffix.toList then
    String.mk (s.toList.take n)
  else s

/-- One path element in `filepath.Clean`; `out` holds the elements written so
far, last first.  Empty elements and `.` are dropped; `..` removes the element
before it, is dropped at the root, and is kept at the start of a relative
path. -/
def cleanStep (rooted : Bool) (out : List (List Char)) (elem : List Char) : List (List Char) :=
  if elem = [] ∨ elem = ['.'] then out
  else if elem = ['.', '.'] then
    match out with
    | [] => if rooted then [] else [elem]
    | top :: below => if top = ['.', '.'] then elem :: out else below
  else elem :: out

/-- The call `filepath.Clean(path)` with `/` as path separator. -/
def filepathClean (path : String) : String :=
  if path.toList = [] then "."
  else
    let rooted := path.toList.head? = some '/'
    let out := (splitEach '/' path.toList).foldl (cleanStep rooted) []
    if rooted then String.mk ('/' :: List.intercalate ['/'] out.reverse)
    else if out = [] then "."
    else String.mk (List.intercalate ['/'] out.reverse)

/-- The call `filepath.Join(dir, file)`: the non-empty elements joined by `/`,
then cleaned. -/
def filepathJoin (dir file : String) : String :=
  if dir ≠ "" then filepathClean (dir ++ "/" ++ file)
  else if file ≠ "" then filepathClean file
  else ""

/-- Embedding of `func relativeMetaFile(filePath string, metaFile *string,
directory *string) bool`; `stat` tells whether `os.Stat` finds the file.  The
result is `(*metaFile, *directory, returned flag)`. -/
def relativeMetaFile (stat : String → Bool) (filePath : String) : String × String × Bool :=
  let (dirName, fullName) := filepathSplit filePath
  let fileName := trimSuffix fullName (filepathExt fullName)
  let metaFile := filepathJoin dirName (fileName ++ ".json")
  (metaFile, dirName, stat metaFile)

/-! ## What one sidecar gives to `concat` -/

/-- The value `isOk` that `concat` receives from `extractMeta` for a sidecar;
when `extractMeta` panics there is no value and the answer is `false`. -/
def statusOf (fs : String → Option (List UInt8)) (unmarshal : List UInt8 → Option Meta)
    (metaPath : String) : Bool :=
  match extractMeta unmarshal (readFile fs metaPath) with
  | Except.ok (isOk, _) => isOk
  | Except.error _ => false

/-- The six date values of one sidecar. -/
structure DateFacets where
  year : String
  month : String
  day : String
  hour : String
  yearMonth : String
  week : String
  deriving DecidableEq, Repr

/-- The date values that `extractMeta`, `extractDate` and the weekday lookup
yield for a sidecar, when `extractMeta` reports success and nothing panics. -/
def dateFacetsOf (fs : String → Option (List UInt8)) (unmarshal : List UInt8 → Option Meta)
    (metaPath : String) : Option DateFacets :=
  match extractMeta unmarshal (readFile fs metaPath) with
  | Except.ok (true, dateStr, timeStr, _, _) =>
    match extractDate dateStr timeStr with
    | Except.ok (year, month, day, hour, yearAndMonth) =>
      some ⟨year, month, day, hour, yearAndMonth, weekMapGet (parsedWeekdayName dateStr)⟩
    | Except.error _ => none
  | _ => none

/-! # Theorems -/

/-! ## The counting map -/

theorem mapGet_mapPut (m : CountMap) (key : String) (val : Int) (k : String) :
    mapGet (mapPut m key val) k = if key = k then some val else mapGet m k := by
  induction m with
  | nil => simp [mapPut, mapGet]
  | cons kv m ih =>
    obtain ⟨k0, v0⟩ := kv
    by_cases h : k0 = key
    · subst h
      by_cases hk : k0 = k <;> simp [mapPut, mapGet, hk]
    · by_cases hk : k0 = k
      · subst hk
        simp [mapPut, mapGet, h, Ne.symm h]
      · simp [mapPut, mapGet, h, hk, ih]

theorem mapPut_keys_mem (m : CountMap) (key : String) (val : Int) (k : String) :
    k ∈ (mapPut m key val).map Prod.fst ↔ k = key ∨ k ∈ m.map Prod.fst := by
  induction m with
  | nil => simp [mapPut]
  | cons kv m ih =>
    obtain ⟨k0, v0⟩ := kv
    by_cases h : k0 = key
    · subst h
      simp [mapPut]
    · simp only [mapPut, h, if_false, List.map_cons, List.mem_cons, ih]
      tauto

theorem mapPut_nodupKeys (m : CountMap) (key : String) (val : Int)
    (h : (m.map Prod.fst).Nodup) : ((mapPut m key val).map Prod.fst).Nodup := by
  induction m with
  | nil => simp [mapPut]
  | cons kv m ih =>
    obtain ⟨k0, v0⟩ := kv
    simp only [List.map_cons, List.nodup_cons] at h
    by_cases hk : k0 = key
    · subst hk
      simpa [mapPut] using h
    · simp only [mapPut, hk, if_false, List.map_cons, List.nodup_cons]
      refine ⟨?_, ih h.2⟩
      rw [mapPut_keys_mem]
      rintro (h1 | h1)
      · exact hk h1
      · exact h.1 h1

theorem countStep_nodupKeys (m : CountMap) (key : String)
    (h : (m.map Prod.fst).Nodup) : ((countStep m key).map Prod.fst).Nodup := by
  unfold countStep
  cases mapGet m key <;> exact mapPut_nodupKeys _ _ _ h

theorem mapGet_countStep (m : CountMap) (key k : String) :
    mapGet (countStep m key) k =
      if key = k then some ((mapGet m key).getD 0 + 1) else mapGet m k := by
  unfold countStep
  cases h : mapGet m key <;> simp [mapGet_mapPut]

theorem foldl_countStep_nodupKeys (keys : List String) (m : CountMap)
    (h : (m.map Prod.fst).Nodup) : ((keys.foldl countStep m).map Prod.fst).Nodup := by
  induction keys generalizing m with
  | nil => simpa using h
  | cons key keys ih => exact ih _ (countStep_nodupKeys m key h)

theorem mapGet_foldl_countStep (keys : List String) (m : CountMap) (k : String) :
    mapGet (keys.foldl countStep m) k =
      if keys.count k = 0 then mapGet m k
      else some ((mapGet m k).getD 0 + (keys.count k : Int)) := by
  induction keys generalizing m with
  | nil => simp
  | cons key keys ih =>
    rw [List.foldl_cons, ih, mapGet_countStep]
    by_cases hk : key = k
    · subst hk
      by_cases hc : keys.count key = 0
      · simp [hc]
      · simp [hc]
        omega
    · have hne : (key == k) = false := by simpa using hk
      simp [hk, List.count_cons, hne]

theorem countKeys_nodupKeys (keys : List String) :
    ((countKeys keys).map Prod.fst).Nodup :=
  foldl_countStep_nodupKeys keys [] (by simp)

theorem mapGet_countKeys (keys : List String) (k : String) :
    mapGet (countKeys keys) k =
      if keys.count k = 0 then none else some (keys.count k : Int) := by
  unfold countKeys
  rw [mapGet_foldl_countStep]
  simp [mapGet]

theorem mem_iff_mapGet (m : CountMap) (h : (m.map Prod.fst).Nodup) (k : String) (v : Int) :
    (k, v) ∈ m ↔ mapGet m k = some v := by
  induction m with
  | nil => simp [mapGet]
  | cons kv m ih =>
    obtain ⟨k0, v0⟩ := kv
    simp only [List.map_cons, List.nodup_cons] at h
    by_cases hk : k0 = k
    · subst hk
      simp only [mapGet, if_true, List.mem_cons, Prod.mk.injEq, true_and, Option.some.injEq]
      constructor
      · rintro (h1 | h1)
        · exact h1.symm
        · exact absurd (List.mem_map_of_mem Prod.fst h1) h.1
      · intro h1
        exact Or.inl h1.symm
    · simp only [mapGet, hk, if_false, List.mem_cons, Prod.mk.injEq, ← ih h.2]
      constructor
      · rintro (h1 | h1)
        · exact absurd h1.1.symm hk
        · exact h1
      · exact Or.inr

theorem mem_countKeys (keys : List String) (k : String) (v : Int) :
    (k, v) ∈ countKeys keys ↔ k ∈ keys ∧ v = (keys.count k : Int) := by
  rw [mem_iff_mapGet _ (countKeys_nodupKeys keys), mapGet_countKeys]
  by_cases hc : keys.count k = 0
  · have : k ∉ keys := List.count_eq_zero.mp hc
    simp [hc, this]
  · have : k ∈ keys := by
      by_contra hn
      exact hc (List.count_eq_zero.mpr hn)
    simp [hc, this, eq_comm]

theorem countKeys_keys_perm (keys : List String) :
    ((countKeys keys).map Prod.fst).Perm keys.dedup := by
  rw [List.perm_ext_iff_of_nodup (countKeys_nodupKeys keys) (List.nodup_dedup keys)]
  intro k
  rw [List.mem_dedup]
  constructor
  · intro h
    obtain ⟨⟨k1, v⟩, hm, rfl⟩ := List.mem_map.mp h
    exact ((mem_countKeys keys k1 v).mp hm).1
  · intro h
    exact List.mem_map.mpr ⟨(k, (keys.count k : Int)), (mem_countKeys keys k _).mpr ⟨h, rfl⟩, rfl⟩

theorem countKeys_length (keys : List String) :
    (countKeys keys).length = keys.dedup.length := by
  have h := (countKeys_keys_perm keys).length_eq
  simpa using h

/-! ## Insertion sort meets the contract of `sort.Slice` -/

theorem bubbleLeft_perm {α : Type} (less : α → α → Bool) (x : α) (l : List α) :
    (bubbleLeft less x l).Perm (x :: l) := by
  induction l with
  | nil => simp [bubbleLeft]
  | cons p rest ih =>
    unfold bubbleLeft
    split
    · exact (List.Perm.cons p ih).trans (List.Perm.swap x p rest)
    · exact List.Perm.refl _

theorem foldl_bubbleLeft_perm {α : Type} (less : α → α → Bool) (l acc : List α) :
    (l.foldl (fun sortedRev x => bubbleLeft less x sortedRev) acc).Perm (l.reverse ++ acc) := by
  induction l generalizing acc with
  | nil => simp
  | cons x l ih =>
    rw [List.foldl_cons]
    refine (ih _).trans ?_
    rw [List.reverse_cons, List.append_assoc]
    exact List.Perm.append_left _ (bubbleLeft_perm less x acc)

theorem insertionSort_perm {α : Type} (less : α → α → Bool) (l : List α) :
    (insertionSort less l).Perm l := by
  unfold insertionSort
  refine (List.reverse_perm _).trans ?_
  have h := foldl_bubbleLeft_perm less l []
  rw [List.append_nil] at h
  exact h.trans (List.reverse_perm l)

theorem bubbleLeft_pairwise (x : JSON) (l : List JSON)
    (h : l.Pairwise (fun a b => lessByValue a b = false)) :
    (bubbleLeft lessByValue x l).Pairwise (fun a b => lessByValue a b = false) := by
  induction l with
  | nil => simp [bubbleLeft]
  | cons p rest ih =>
    rw [List.pairwise_cons] at h
    unfold bubbleLeft
    split
    · rename_i hlt
      rw [List.pairwise_cons]
      refine ⟨?_, ih h.2⟩
      intro y hy
      rcases List.mem_cons.mp ((bubbleLeft_perm lessByValue x rest).mem_iff.mp hy) with hy1 | hy1
      · subst hy1
        simp only [lessByValue, decide_eq_true_eq, decide_eq_false_iff_not] at hlt ⊢
        omega
      · exact h.1 y hy1
    · rename_i hlt
      rw [List.pairwise_cons]
      refine ⟨?_, List.pairwise_cons.mpr h⟩
      intro y hy
      rcases List.mem_cons.mp hy with hy1 | hy1
      · subst hy1
        simpa using hlt
      · have h1 := h.1 y hy1
        simp only [lessByValue, decide_eq_true_eq, decide_eq_false_iff_not,
          Bool.not_eq_true] at hlt h1 ⊢
        omega

theorem foldl_bubbleLeft_pairwise (l acc : List JSON)
    (h : acc.Pairwise (fun a b => lessByValue a b = false)) :
    (l.foldl (fun sortedRev x => bubbleLeft lessByValue x sortedRev) acc).Pairwise
      (fun a b => lessByValue a b = false) := by
  induction l generalizing acc with
  | nil => simpa using h
  | cons x l ih => exact ih _ (bubbleLeft_pairwise x acc h)

theorem insertionSort_sortContract : SortContract insertionSort := by
  intro l
  refine ⟨insertionSort_perm lessByValue l, ?_⟩
  unfold insertionSort
  rw [List.pairwise_reverse]
  exact foldl_bubbleLeft_pairwise l [] List.Pairwise.nil

theorem id_rangeContract : RangeContract id := fun m => List.Perm.refl m

theorem reverse_rangeContract : RangeContract List.reverse := fun m => List.reverse_perm m

/-! ## The sorted slice `keyCounts` -/

/-- The slice `keyCounts` of `arrayStats` after `sort.Slice`. -/
theorem arrayStats_eq (rangeOrder : CountMap → List (String × Int))
    (sortSlice : (JSON → JSON → Bool) → List JSON → List JSON)
    (keys : List String) (limit : Int) (hlimit : 0 ≤ limit) :
    arrayStats rangeOrder sortSlice keys limit =
      Except.ok ((sortSlice lessByValue (keyCountsOf rangeOrder keys)).take limit.toNat) := by
  unfold arrayStats
  simp [not_lt.mpr hlimit]

theorem sorted_perm_entries (rangeOrder : CountMap → List (String × Int))
    (sortSlice : (JSON → JSON → Bool) → List JSON → List JSON)
    (hrange : RangeContract rangeOrder) (hsort : SortContract sortSlice) (keys : List String) :
    (sortSlice lessByValue (keyCountsOf rangeOrder keys)).Perm
      ((countKeys keys).map (fun kv => JSON.mk kv.1 kv.2)) :=
  (hsort _).1.trans ((hrange _).map _)

theorem mem_sorted_iff (rangeOrder : CountMap → List (String × Int))
    (sortSlice : (JSON → JSON → Bool) → List JSON → List JSON)
    (hrange : RangeContract rangeOrder) (hsort : SortContract sortSlice) (keys : List String)
    (e : JSON) :
    e ∈ sortSlice lessByValue (keyCountsOf rangeOrder keys) ↔
      e.Name ∈ keys ∧ e.Value = (keys.count e.Name : Int) := by
  rw [(sorted_perm_entries rangeOrder sortSlice hrange hsort keys).mem_iff, List.mem_map]
  constructor
  · rintro ⟨⟨k, v⟩, hm, rfl⟩
    exact (mem_countKeys keys k v).mp hm
  · intro h
    exact ⟨(e.Name, e.Value), (mem_countKeys keys _ _).mpr h, rfl⟩

theorem sorted_names_perm (rangeOrder : CountMap → List (String × Int))
    (sortSlice : (JSON → JSON → Bool) → List JSON → List JSON)
    (hrange : RangeContract rangeOrder) (hsort : SortContract sortSlice) (keys : List String) :
    ((sortSlice lessByValue (keyCountsOf rangeOrder keys)).map JSON.Name).Perm keys.dedup := by
  have h := (sorted_perm_entries rangeOrder sortSlice hrange hsort keys).map JSON.Name
  rw [List.map_map] at h
  exact h.trans (countKeys_keys_perm keys)

theorem sorted_length (rangeOrder : CountMap → List (String × Int))
    (sortSlice : (JSON → JSON → Bool) → List JSON → List JSON)
    (hrange : RangeContract rangeOrder) (hsort : SortContract sortSlice) (keys : List String) :
    (sortSlice lessByValue (keyCountsOf rangeOrder keys)).length = keys.dedup.length := by
  have h := (sorted_names_perm rangeOrder sortSlice hrange hsort keys).length_eq
  simpa using h

theorem toJSON_copy (topN : List JSON) (acc : List JSON) :
    topN.foldl (fun result num => result ++ [JSON.mk num.Name num.Value]) acc = acc ++ topN := by
  induction topN generalizing acc with
  | nil => simp
  | cons x xs ih => rw [List.foldl_cons, ih]; simp

theorem toJSON_eq_arrayStats (rangeOrder : CountMap → List (String × Int))
    (sortSlice : (JSON → JSON → Bool) → List JSON → List JSON)
    (data : List String) (limit : Int) :
    toJSON rangeOrder sortSlice data limit = arrayStats rangeOrder sortSlice data limit := by
  unfold toJSON
  cases arrayStats rangeOrder sortSlice data limit with
  | error e => rfl
  | ok topN => simp [toJSON_copy]

/-! ## Claims on `arrayStats` -/

/-- C1: for every list of keys and every limit `≥ 0`, `arrayStats` returns, and
the entries of its result are sorted by descending count: for all positions
`i < j` of the result, `result[i].Value ≥ result[j].Value`.  This holds whatever
the map iteration order and for every sorting routine meeting the contract of
`sort.Slice`. -/
theorem arrayStats_sorted_desc (rangeOrder : CountMap → List (String × Int))
    (sortSlice : (JSON → JSON → Bool) → List JSON → List JSON)
    (hsort : SortContract sortSlice) (keys : List String) (limit : Int) (hlimit : 0 ≤ limit) :
    ∃ res : List JSON, arrayStats rangeOrder sortSlice keys limit = Except.ok res ∧
      ∀ (i j : Nat) (hi : i < res.length) (hj : j < res.length), i < j →
        res[i].Value ≥ res[j].Value := by
  refine ⟨_, arrayStats_eq rangeOrder sortSlice keys limit hlimit, ?_⟩
  have hp := ((hsort (keyCountsOf rangeOrder keys)).2).sublist
    (List.take_sublist limit.toNat (sortSlice lessByValue (keyCountsOf rangeOrder keys)))
  intro i j hi hj hij
  have h := List.pairwise_iff_getElem.mp hp i j hi hj hij
  simp only [lessByValue, decide_eq_false_iff_not] at h
  omega

/-- Witness of C1 on the keys `a, a, b, c, c, c` with limit 30. -/
theorem arrayStats_sorted_desc_witness :
    ∃ res : List JSON,
      arrayStats id insertionSort ["a", "a", "b", "c", "c", "c"] 30 = Except.ok res ∧
      ∀ (i j : Nat) (hi : i < res.length) (hj : j < res.length), i < j →
        res[i].Value ≥ res[j].Value :=
  arrayStats_sorted_desc id insertionSort insertionSort_sortContract
    ["a", "a", "b", "c", "c", "c"] 30 (by decide)

/-- C2, as stated, fails: on the keys `b, a` with limit 2, when `range` visits
the map in insertion order, the result is `[b:1, a:1]`; its two entries have
equal counts and the first name is not below the second. -/
theorem arrayStats_tie_order_counterexample :
    RangeContract id ∧ SortContract insertionSort ∧
      arrayStats id insertionSort ["b", "a"] 2 =
        Except.ok [JSON.mk "b" 1, JSON.mk "a" 1] ∧
      (JSON.mk "b" 1).Value = (JSON.mk "a" 1).Value ∧
      ¬ ((JSON.mk "b" 1).Name < (JSON.mk "a" 1).Name) := by
  refine ⟨id_rangeContract, insertionSort_sortContract, rfl, rfl, ?_⟩
  show ¬ ("b" < "a")
  rw [String.lt_iff_toList_lt]
  decide

theorem map_value_sorted (l : List JSON)
    (h : l.Pairwise (fun a b => lessByValue b a = false)) :
    (l.map JSON.Value).Sorted (· ≥ ·) := by
  unfold List.Sorted
  rw [List.pairwise_map]
  refine h.imp ?_
  intro a b hab
  simp only [lessByValue, decide_eq_false_iff_not] at hab
  omega

theorem countKeys_perm_of_perm (keys1 keys2 : List String) (hp : keys1.Perm keys2) :
    (countKeys keys1).Perm (countKeys keys2) := by
  have nd : ∀ keys : List String, (countKeys keys).Nodup := fun keys =>
    List.Nodup.of_map Prod.fst (countKeys_nodupKeys keys)
  rw [List.perm_ext_iff_of_nodup (nd keys1) (nd keys2)]
  rintro ⟨k, v⟩
  rw [mem_countKeys, mem_countKeys, hp.mem_iff, hp.count_eq]

theorem sorted_values_unique (rangeOrder1 rangeOrder2 : CountMap → List (String × Int))
    (sortSlice1 sortSlice2 : (JSON → JSON → Bool) → List JSON → List JSON)
    (hrange1 : RangeContract rangeOrder1) (hsort1 : SortContract sortSlice1)
    (hrange2 : RangeContract rangeOrder2) (hsort2 : SortContract sortSlice2)
    (keys1 keys2 : List String) (hp : keys1.Perm keys2) :
    (sortSlice1 lessByValue (keyCountsOf rangeOrder1 keys1)).map JSON.Value =
      (sortSlice2 lessByValue (keyCountsOf rangeOrder2 keys2)).map JSON.Value := by
  have h1 := sorted_perm_entries rangeOrder1 sortSlice1 hrange1 hsort1 keys1
  have h2 := sorted_perm_entries rangeOrder2 sortSlice2 hrange2 hsort2 keys2
  have h12 : (sortSlice1 lessByValue (keyCountsOf rangeOrder1 keys1)).Perm
      (sortSlice2 lessByValue (keyCountsOf rangeOrder2 keys2)) :=
    h1.trans (((countKeys_perm_of_perm keys1 keys2 hp).map _).trans h2.symm)
  exact List.eq_of_perm_of_sorted (h12.map JSON.Value)
    (map_value_sorted _ (hsort1 _).2) (map_value_sorted _ (hsort2 _).2)

/-- C2, amended: ties are not ordered by key.  For every list of keys and every
limit `≥ 0`, two result entries at positions `i < j` with equal `Value` have
different `Name`s (their relative order is left to the map iteration and to
`sort.Slice`), and the multiset of keys determines the sequence of counts of
the result: any other run, on a permutation of the keys, returns entries with
the same `Value`s in the same positions. -/
theorem arrayStats_ties_distinct_counts_unique
    (rangeOrder1 rangeOrder2 : CountMap → List (String × Int))
    (sortSlice1 sortSlice2 : (JSON → JSON → Bool) → List JSON → List JSON)
    (hrange1 : RangeContract rangeOrder1) (hsort1 : SortContract sortSlice1)
    (hrange2 : RangeContract rangeOrder2) (hsort2 : SortContract sortSlice2)
    (keys1 keys2 : List String) (hp : keys1.Perm keys2) (limit : Int) (hlimit : 0 ≤ limit) :
    ∃ res1 res2 : List JSON,
      arrayStats rangeOrder1 sortSlice1 keys1 limit = Except.ok res1 ∧
      arrayStats rangeOrder2 sortSlice2 keys2 limit = Except.ok res2 ∧
      (∀ (i j : Nat) (hi : i < res1.length) (hj : j < res1.length), i < j →
        res1[i].Value = res1[j].Value → res1[i].Name ≠ res1[j].Name) ∧
      res1.map JSON.Value = res2.map JSON.Value := by
  refine ⟨_, _, arrayStats_eq rangeOrder1 sortSlice1 keys1 limit hlimit,
    arrayStats_eq rangeOrder2 sortSlice2 keys2 limit hlimit, ?_, ?_⟩
  · have hnd : ((sortSlice1 lessByValue (keyCountsOf rangeOrder1 keys1)).map JSON.Name).Nodup :=
      (sorted_names_perm rangeOrder1 sortSlice1 hrange1 hsort1 keys1).nodup_iff.mpr
        (List.nodup_dedup keys1)
    have hnd2 : (((sortSlice1 lessByValue (keyCountsOf rangeOrder1 keys1)).take
        limit.toNat).map JSON.Name).Nodup :=
      hnd.sublist ((List.take_sublist _ _).map JSON.Name)
    intro i j hi hj hij _
    have h := List.pairwise_iff_getElem.mp (List.pairwise_map.mp hnd2) i j hi hj hij
    exact h
  · rw [List.map_take, List.map_take,
      sorted_values_unique rangeOrder1 rangeOrder2 sortSlice1 sortSlice2 hrange1 hsort1
        hrange2 hsort2 keys1 keys2 hp]

/-- Witness of the amended C2: the keys `b, a, a` visited in insertion order
against their permutation `a, b, a` visited in reverse insertion order. -/
theorem arrayStats_ties_distinct_counts_unique_witness :
    ∃ res1 res2 : List JSON,
      arrayStats id insertionSort ["b", "a", "a"] 5 = Except.ok res1 ∧
      arrayStats List.reverse insertionSort ["a", "b", "a"] 5 = Except.ok res2 ∧
      (∀ (i j : Nat) (hi : i < res1.length) (hj : j < res1.length), i < j →
        res1[i].Value = res1[j].Value → res1[i].Name ≠ res1[j].Name) ∧
      res1.map JSON.Value = res2.map JSON.Value :=
  arrayStats_ties_distinct_counts_unique id List.reverse insertionSort insertionSort
    id_rangeContract insertionSort_sortContract reverse_rangeContract
    insertionSort_sortContract ["b", "a", "a"] ["a", "b", "a"]
    (List.Perm.swap "a" "b" ["a"]) 5 (by decide)

/-- C3: for every list of keys and every limit `≥ 0`, `arrayStats` and `toJSON`
return a sequence whose length is `min(limit, number of distinct keys)`; the
length never exceeds `limit`, and when the number of distinct keys is at most
`limit` every distinct key appears in the result. -/
theorem arrayStats_length (rangeOrder : CountMap → List (String × Int))
    (sortSlice : (JSON → JSON → Bool) → List JSON → List JSON)
    (hrange : RangeContract rangeOrder) (hsort : SortContract sortSlice)
    (keys : List String) (limit : Int) (hlimit : 0 ≤ limit) :
    ∃ res : List JSON, arrayStats rangeOrder sortSlice keys limit = Except.ok res ∧
      toJSON rangeOrder sortSlice keys limit = Except.ok res ∧
      (res.length : Int) = min limit (keys.dedup.length : Int) ∧
      (res.length : Int) ≤ limit ∧
      ((keys.dedup.length : Int) ≤ limit → ∀ k ∈ keys, ∃ e ∈ res, e.Name = k) := by
  have heq := arrayStats_eq rangeOrder sortSlice keys limit hlimit
  have hlen := sorted_length rangeOrder sortSlice hrange hsort keys
  refine ⟨_, heq, (toJSON_eq_arrayStats rangeOrder sortSlice keys limit).trans heq, ?_, ?_, ?_⟩
  · rw [List.length_take, hlen]
    omega
  · rw [List.length_take, hlen]
    omega
  · intro hle k hk
    have hall : limit.toNat ≥ (sortSlice lessByValue (keyCountsOf rangeOrder keys)).length := by
      rw [hlen]
      omega
    rw [List.take_of_length_le hall]
    exact ⟨JSON.mk k (keys.count k : Int),
      (mem_sorted_iff rangeOrder sortSlice hrange hsort keys _).mpr ⟨hk, rfl⟩, rfl⟩

/-- Witness of C3: three distinct category names with limit 10. -/
theorem arrayStats_length_witness :
    ∃ res : List JSON,
      arrayStats id insertionSort ["go", "web", "go", "ops"] 10 = Except.ok res ∧
      toJSON id insertionSort ["go", "web", "go", "ops"] 10 = Except.ok res ∧
      (res.length : Int) = min 10 ((["go", "web", "go", "ops"].dedup.length : Nat) : Int) ∧
      (res.length : Int) ≤ 10 ∧
      (((["go", "web", "go", "ops"].dedup.length : Nat) : Int) ≤ 10 →
        ∀ k ∈ ["go", "web", "go", "ops"], ∃ e ∈ res, e.Name = k) :=
  arrayStats_length id insertionSort id_rangeContract insertionSort_sortContract
    ["go", "web", "go", "ops"] 10 (by decide)

/-- C4: for every list of keys and every limit `≥ 0`, each entry of the result
of `arrayStats` has `Value` equal to the number of positions of `keys` holding
its `Name`, hence `Value ≥ 1`, and the `Name`s of the entries are pairwise
distinct. -/
theorem arrayStats_counts (rangeOrder : CountMap → List (String × Int))
    (sortSlice : (JSON → JSON → Bool) → List JSON → List JSON)
    (hrange : RangeContract rangeOrder) (hsort : SortContract sortSlice)
    (keys : List String) (limit : Int) (hlimit : 0 ≤ limit) :
    ∃ res : List JSON, arrayStats rangeOrder sortSlice keys limit = Except.ok res ∧
      (∀ e ∈ res, e.Value = (keys.count e.Name : Int) ∧ 1 ≤ e.Value) ∧
      (∀ (i j : Nat) (hi : i < res.length) (hj : j < res.length), i < j →
        res[i].Name ≠ res[j].Name) := by
  refine ⟨_, arrayStats_eq rangeOrder sortSlice keys limit hlimit, ?_, ?_⟩
  · intro e he
    have hm := (mem_sorted_iff rangeOrder sortSlice hrange hsort keys e).mp
      (List.mem_of_mem_take he)
    refine ⟨hm.2, ?_⟩
    have hpos : 0 < keys.count e.Name := List.count_pos_iff.mpr hm.1
    omega
  · have hnd : ((sortSlice lessByValue (keyCountsOf rangeOrder keys)).map JSON.Name).Nodup :=
      (sorted_names_perm rangeOrder sortSlice hrange hsort keys).nodup_iff.mpr
        (List.nodup_dedup keys)
    have hnd2 : (((sortSlice lessByValue (keyCountsOf rangeOrder keys)).take
        limit.toNat).map JSON.Name).Nodup :=
      hnd.sublist ((List.take_sublist _ _).map JSON.Name)
    intro i j hi hj hij
    exact List.pairwise_iff_getElem.mp (List.pairwise_map.mp hnd2) i j hi hj hij

/-- Witness of C4 on the keys `x, y, x, x` with limit 1. -/
theorem arrayStats_counts_witness :
    ∃ res : List JSON, arrayStats id insertionSort ["x", "y", "x", "x"] 1 = Except.ok res ∧
      (∀ e ∈ res, e.Value = ((["x", "y", "x", "x"].count e.Name : Nat) : Int) ∧ 1 ≤ e.Value) ∧
      (∀ (i j : Nat) (hi : i < res.length) (hj : j < res.length), i < j →
        res[i].Name ≠ res[j].Name) :=
  arrayStats_counts id insertionSort id_rangeContract insertionSort_sortContract
    ["x", "y", "x", "x"] 1 (by decide)

/-- C5: `arrayStats` returns the top-N keys.  For every list of keys and every
limit `≥ 0`, a key of `keys` that is the `Name` of no result entry occurs in
`keys` at most as many times as the `Name` of each result entry. -/
theorem arrayStats_topN (rangeOrder : CountMap → List (String × Int))
    (sortSlice : (JSON → JSON → Bool) → List JSON → List JSON)
    (hrange : RangeContract rangeOrder) (hsort : SortContract sortSlice)
    (keys : List String) (limit : Int) (hlimit : 0 ≤ limit) :
    ∃ res : List JSON, arrayStats rangeOrder sortSlice keys limit = Except.ok res ∧
      ∀ k ∈ keys, (∀ e ∈ res, e.Name ≠ k) →
        ∀ e ∈ res, keys.count k ≤ keys.count e.Name := by
  refine ⟨_, arrayStats_eq rangeOrder sortSlice keys limit hlimit, ?_⟩
  intro k hk habsent e he
  have hkin : JSON.mk k (keys.count k : Int) ∈
      sortSlice lessByValue (keyCountsOf rangeOrder keys) :=
    (mem_sorted_iff rangeOrder sortSlice hrange hsort keys _).mpr ⟨hk, rfl⟩
  rw [← List.take_append_drop limit.toNat
    (sortSlice lessByValue (keyCountsOf rangeOrder keys)), List.mem_append] at hkin
  have hdrop : JSON.mk k (keys.count k : Int) ∈
      (sortSlice lessByValue (keyCountsOf rangeOrder keys)).drop limit.toNat := by
    rcases hkin with h | h
    · exact absurd rfl (habsent _ h)
    · exact h
  have hsorted := (hsort (keyCountsOf rangeOrder keys)).2
  rw [← List.take_append_drop limit.toNat
    (sortSlice lessByValue (keyCountsOf rangeOrder keys)), List.pairwise_append] at hsorted
  have hle := hsorted.2.2 e he _ hdrop
  have hev := ((mem_sorted_iff rangeOrder sortSlice hrange hsort keys e).mp
    (List.mem_of_mem_take he)).2
  simp only [lessByValue, decide_eq_false_iff_not] at hle
  omega

/-- Witness of C5 on the keys `x, y, x, z, z, z` with limit 2. -/
theorem arrayStats_topN_witness :
    ∃ res : List JSON,
      arrayStats id insertionSort ["x", "y", "x", "z", "z", "z"] 2 = Except.ok res ∧
      ∀ k ∈ ["x", "y", "x", "z", "z", "z"], (∀ e ∈ res, e.Name ≠ k) →
        ∀ e ∈ res, ["x", "y", "x", "z", "z", "z"].count k ≤
          ["x", "y", "x", "z", "z", "z"].count e.Name :=
  arrayStats_topN id insertionSort id_rangeContract insertionSort_sortContract
    ["x", "y", "x", "z", "z", "z"] 2 (by decide)

/-- C6: with limit 0 `arrayStats` returns the empty sequence, but with a
negative limit it does not return: `make([]JSON, 0, limit)` panics before the
copying loop is reached. -/
theorem arrayStats_nonpositive_limit (rangeOrder : CountMap → List (String × Int))
    (sortSlice : (JSON → JSON → Bool) → List JSON → List JSON)
    (keys : List String) (limit : Int) :
    arrayStats rangeOrder sortSlice keys 0 = Except.ok [] ∧
      (limit < 0 →
        arrayStats rangeOrder sortSlice keys limit = Except.error Fault.makesliceCap) := by
  refine ⟨?_, ?_⟩
  · simp [arrayStats]
  · intro h
    simp [arrayStats, h]

/-- Witness of C6: `arrayStats([]string{"a"}, -1)` panics. -/
theorem arrayStats_nonpositive_limit_witness :
    ((-1 : Int) < 0) ∧
      arrayStats id insertionSort ["a"] (-1) = Except.error Fault.makesliceCap :=
  ⟨by decide, (arrayStats_nonpositive_limit id insertionSort ["a"] (-1)).2 (by decide)⟩

/-- C7, as stated, fails: the key lists `a, b` and `b, a` are permutations of
each other, yet with limit 1 and the map visited in insertion order the first
run returns `[a:1]` and the second `[b:1]`. -/
theorem arrayStats_permutation_counterexample :
    RangeContract id ∧ SortContract insertionSort ∧
      ["a", "b"].Perm ["b", "a"] ∧
      arrayStats id insertionSort ["a", "b"] 1 = Except.ok [JSON.mk "a" 1] ∧
      arrayStats id insertionSort ["b", "a"] 1 = Except.ok [JSON.mk "b" 1] ∧
      arrayStats id insertionSort ["a", "b"] 1 ≠ arrayStats id insertionSort ["b", "a"] 1 := by
  refine ⟨id_rangeContract, insertionSort_sortContract, List.Perm.swap "b" "a" [], rfl, rfl, ?_⟩
  intro h
  have h1 : arrayStats id insertionSort ["a", "b"] 1 = Except.ok [JSON.mk "a" 1] := rfl
  have h2 : arrayStats id insertionSort ["b", "a"] 1 = Except.ok [JSON.mk "b" 1] := rfl
  rw [h1, h2] at h
  injection h with h
  injection h with h
  injection h with h
  exact absurd h (by decide)

theorem eq_of_map_value_eq (l1 l2 : List JSON) (hmap : l1.map JSON.Value = l2.map JSON.Value)
    (hinj : ∀ a ∈ l1, ∀ b ∈ l2, a.Value = b.Value → a = b) : l1 = l2 := by
  induction l1 generalizing l2 with
  | nil =>
    cases l2 with
    | nil => rfl
    | cons b l2 => simp at hmap
  | cons a l1 ih =>
    cases l2 with
    | nil => simp at hmap
    | cons b l2 =>
      simp only [List.map_cons, List.cons.injEq] at hmap
      have hab : a = b := hinj a (List.mem_cons_self a l1) b (List.mem_cons_self b l2) hmap.1
      have htl : l1 = l2 := ih l2 hmap.2 (fun x hx y hy hxy =>
        hinj x (List.mem_cons_of_mem a hx) y (List.mem_cons_of_mem b hy) hxy)
      rw [hab, htl]

/-- C7, amended: `arrayStats` is deterministic for a given multiset and limit
when no two distinct keys have equal counts.  For every limit `≥ 0` and every
two key lists that are permutations of each other in which distinct keys occur
a different number of times, any two runs return the same sequence of entries,
whatever the map iteration orders and the sorting routines. -/
theorem arrayStats_deterministic_without_ties
    (rangeOrder1 rangeOrder2 : CountMap → List (String × Int))
    (sortSlice1 sortSlice2 : (JSON → JSON → Bool) → List JSON → List JSON)
    (hrange1 : RangeContract rangeOrder1) (hsort1 : SortContract sortSlice1)
    (hrange2 : RangeContract rangeOrder2) (hsort2 : SortContract sortSlice2)
    (keys1 keys2 : List String) (hp : keys1.Perm keys2)
    (hties : ∀ a ∈ keys1, ∀ b ∈ keys1, keys1.count a = keys1.count b → a = b)
    (limit : Int) (hlimit : 0 ≤ limit) :
    ∃ res : List JSON,
      arrayStats rangeOrder1 sortSlice1 keys1 limit = Except.ok res ∧
      arrayStats rangeOrder2 sortSlice2 keys2 limit = Except.ok res := by
  have hsame : sortSlice1 lessByValue (keyCountsOf rangeOrder1 keys1) =
      sortSlice2 lessByValue (keyCountsOf rangeOrder2 keys2) := by
    apply eq_of_map_value_eq _ _
      (sorted_values_unique rangeOrder1 rangeOrder2 sortSlice1 sortSlice2 hrange1 hsort1
        hrange2 hsort2 keys1 keys2 hp)
    intro a ha b hb hab
    have h1 := (mem_sorted_iff rangeOrder1 sortSlice1 hrange1 hsort1 keys1 a).mp ha
    have h2 := (mem_sorted_iff rangeOrder2 sortSlice2 hrange2 hsort2 keys2 b).mp hb
    rw [← hp.mem_iff, ← hp.count_eq] at h2
    have hn : a.Name = b.Name := by
      apply hties a.Name h1.1 b.Name h2.1
      have h3 : (keys1.count a.Name : Int) = (keys1.count b.Name : Int) := by
        rw [← h1.2, ← h2.2]
        exact hab
      exact_mod_cast h3
    cases a
    cases b
    simp only at hn hab
    rw [hn, hab]
  refine ⟨_, arrayStats_eq rangeOrder1 sortSlice1 keys1 limit hlimit, ?_⟩
  rw [hsame]
  exact arrayStats_eq rangeOrder2 sortSlice2 keys2 limit hlimit

/-- Witness of the amended C7: the keys `b, a, a` visited in insertion order
against `a, b, a` visited in reverse order, limit 1. -/
theorem arrayStats_deterministic_without_ties_witness :
    ∃ res : List JSON,
      arrayStats id insertionSort ["b", "a", "a"] 1 = Except.ok res ∧
      arrayStats List.reverse insertionSort ["a", "b", "a"] 1 = Except.ok res :=
  arrayStats_deterministic_without_ties id List.reverse insertionSort insertionSort
    id_rangeContract insertionSort_sortContract reverse_rangeContract
    insertionSort_sortContract ["b", "a", "a"] ["a", "b", "a"]
    (List.Perm.swap "a" "b" ["a"]) (by decide) 1 (by decide)

/-! ## Claims on `extractMeta` and `concat` -/

/-- C8: six sidecars carrying the tags `a, a, b, c, c, c`.  The tag sequence
returned by `concat` is empty, so `toJSON` of it with limit 30 is empty as
well, where the tags of the sidecars themselves rank as `[c:3, a:2, b:1]`. -/
theorem concat_six_sidecars_tags :
    concat (tableFS sampleFS) (tableUnmarshal sampleTexts)
        ["p1.json", "p2.json", "p3.json", "p4.json", "p5.json", "p6.json"] =
      Except.ok
        { tags := []
          categories := []
          years := ["2021", "2021", "2021", "2021", "2022", "2022"]
          months := ["01", "01", "02", "02", "03", "03"]
          days := ["04", "05", "06", "07", "08", "09"]
          hours := ["10", "11", "12", "13", "14", "15"]
          yearMonths := ["2021-01", "2021-01", "2021-02", "2021-02", "2022-03", "2022-03"]
          weeks := ["周一", "周二", "周六", "周日", "周二", "周三"] } ∧
      toJSON id insertionSort [] 30 = Except.ok [] ∧
      toJSON id insertionSort ["a", "a", "b", "c", "c", "c"] 30 =
        Except.ok [JSON.mk "c" 3, JSON.mk "a" 2, JSON.mk "b" 1] :=
  ⟨rfl, rfl, rfl⟩

theorem concatStep_of_parse_error (fs : String → Option (List UInt8))
    (unmarshal : List UInt8 → Option Meta) (acc : Facets) (metaPath : String)
    (h : unmarshal (readFile fs metaPath) = none) :
    concatStep fs unmarshal acc metaPath = Except.ok acc := by
  simp [concatStep, concatBody, extractMeta, h, bind, Except.bind, pure, Except.pure]

theorem foldlM_concatStep_filter (fs : String → Option (List UInt8))
    (unmarshal : List UInt8 → Option Meta) (bad : String → Bool)
    (hbad : ∀ p, bad p = true → unmarshal (readFile fs p) = none)
    (metaFiles : List String) (acc : Facets) :
    metaFiles.foldlM (concatStep fs unmarshal) acc =
      (metaFiles.filter (fun p => !bad p)).foldlM (concatStep fs unmarshal) acc := by
  induction metaFiles generalizing acc with
  | nil => rfl
  | cons p rest ih =>
    by_cases hp : bad p = true
    · rw [List.foldlM_cons, concatStep_of_parse_error fs unmarshal acc p (hbad p hp)]
      simp only [hp, List.filter_cons, Bool.not_true, Bool.false_eq_true, if_false]
      exact ih acc
    · have hp2 : bad p = false := by simpa using hp
      simp only [hp2, List.filter_cons, Bool.not_false, if_true, List.foldlM_cons]
      congr 1
      funext acc1
      exact ih acc1

/-- C9: a file whose sidecar is missing or unreadable (`readFile` yields no
bytes) or is not valid JSON leaves the eight sequences as they are, and
`concat` over a list containing such sidecars returns what it returns over the
list with those sidecars removed.  `json.Unmarshal` rejects the empty input. -/
theorem concat_skips_failed_sidecars (fs : String → Option (List UInt8))
    (unmarshal : List UInt8 → Option Meta) (hempty : unmarshal [] = none)
    (bad : String → Bool)
    (hbad : ∀ p, bad p = true →
      fs p = none ∨ readFile fs p = [] ∨ unmarshal (readFile fs p) = none)
    (metaFiles : List String) :
    (∀ (acc : Facets) (p : String), bad p = true →
        concatStep fs unmarshal acc p = Except.ok acc) ∧
      concat fs unmarshal metaFiles =
        concat fs unmarshal (metaFiles.filter (fun p => !bad p)) := by
  have hfail : ∀ p, bad p = true → unmarshal (readFile fs p) = none := by
    intro p hp
    rcases hbad p hp with h | h | h
    · simp [readFile, h, hempty]
    · rw [h]
      exact hempty
    · exact h
  refine ⟨?_, ?_⟩
  · intro acc p hp
    exact concatStep_of_parse_error fs unmarshal acc p (hfail p hp)
  · exact foldlM_concatStep_filter fs unmarshal bad hfail metaFiles Facets.empty

/-- Witness of C9: the sample archive read through the missing `p7.json` and
through `p8.json`, which is not JSON. -/
theorem concat_skips_failed_sidecars_witness :
    (∀ (acc : Facets) (p : String), (p == "p7.json" || p == "p8.json") = true →
        concatStep (tableFS sampleFS) (tableUnmarshal sampleTexts) acc p = Except.ok acc) ∧
      concat (tableFS sampleFS) (tableUnmarshal sampleTexts)
          ["p7.json", "p1.json", "p8.json", "p3.json"] =
        concat (tableFS sampleFS) (tableUnmarshal sampleTexts)
          (["p7.json", "p1.json", "p8.json", "p3.json"].filter
            (fun p => !(p == "p7.json" || p == "p8.json"))) :=
  concat_skips_failed_sidecars (tableFS sampleFS) (tableUnmarshal sampleTexts) rfl
    (fun p => p == "p7.json" || p == "p8.json")
    (by
      intro p hp
      simp only [Bool.or_eq_true, beq_iff_eq] at hp
      rcases hp with h | h
      · subst h
        exact Or.inl rfl
      · subst h
        exact Or.inr (Or.inr rfl))
    ["p7.json", "p1.json", "p8.json", "p3.json"]

/-- C10, as stated, fails: the sidecar `p9.json` is valid JSON and its date
field `2021-01-15 10:20:30 +0800` splits on whitespace into three parts, yet
`extractMeta` reports `Status = true`, and `concat` does not skip the file. -/
theorem extractMeta_three_parts_counterexample :
    splitWhitespace "2021-01-15 10:20:30 +0800" = ["2021-01-15", "10:20:30", "+0800"] ∧
      extractMeta (tableUnmarshal sampleTexts) (readFile (tableFS sampleFS) "p9.json") =
        Except.ok (true, "2021-01-15", "10:20:30", ["a"], []) ∧
      concat (tableFS sampleFS) (tableUnmarshal sampleTexts) ["p9.json"] =
        Except.ok
          { tags := []
            categories := []
            years := ["2021"]
            months := ["01"]
            days := ["15"]
            hours := ["10"]
            yearMonths := ["2021-01"]
            weeks := ["周五"] } :=
  ⟨rfl, rfl, rfl⟩

/-- A sidecar that is valid JSON and has no date field: the date splits into
the single part `""`, and `extractMeta` panics at `dateParts[1]`; so does
`concat`. -/
theorem extractMeta_undated_faults :
    splitWhitespace "" = [""] ∧
      extractMeta (tableUnmarshal sampleTexts) (readFile (tableFS sampleFS) "p10.json") =
        Except.error Fault.indexOutOfRange ∧
      concat (tableFS sampleFS) (tableUnmarshal sampleTexts) ["p10.json", "p1.json"] =
        Except.error Fault.indexOutOfRange :=
  ⟨rfl, rfl, rfl⟩

theorem categories_names (cs : List Category) (acc : List String) :
    cs.foldl (fun names c => names ++ [c.Name]) acc = acc ++ cs.map Category.Name := by
  induction cs generalizing acc with
  | nil => simp
  | cons c cs ih => rw [List.foldl_cons, ih]; simp

/-- C10, amended: for every sidecar that is valid JSON and whose date field
splits on whitespace into a date part, a time part and any further parts,
`extractMeta` reports `Status = true` with the first part as date and the
second as time, the further parts being ignored; `concat` does not skip the
file, it hands that date and time to `extractDate` and appends the facets. -/
theorem extractMeta_ignores_extra_parts (unmarshal : List UInt8 → Option Meta)
    (fileData : List UInt8) (metaRec : Meta) (hparse : unmarshal fileData = some metaRec)
    (date time : String) (more : List String)
    (hsplit : splitWhitespace metaRec.Date = date :: time :: more) :
    extractMeta unmarshal fileData =
        Except.ok (true, date, time, metaRec.Tags, metaRec.Categories.map Category.Name) ∧
      ∀ (fs : String → Option (List UInt8)) (acc : Facets) (metaPath : String),
        readFile fs metaPath = fileData →
        concatStep fs unmarshal acc metaPath =
          match extractDate date time with
          | Except.error e => Except.error e
          | Except.ok (year, month, day, hour, yearAndMonth) =>
            Except.ok
              { tags := acc.tags
                categories := acc.categories
                years := acc.years ++ [year]
                months := acc.months ++ [month]
                days := acc.days ++ [day]
                hours := acc.hours ++ [hour]
                yearMonths := acc.yearMonths ++ [yearAndMonth]
                weeks := acc.weeks ++ [weekMapGet (parsedWeekdayName date)] } := by
  have hmeta : extractMeta unmarshal fileData =
      Except.ok (true, date, time, metaRec.Tags, metaRec.Categories.map Category.Name) := by
    simp [extractMeta, hparse, hsplit, index, bind, Except.bind, pure, Except.pure,
      categories_names]
  refine ⟨hmeta, ?_⟩
  intro fs acc metaPath hread
  simp only [concatStep, concatBody, hread, hmeta, bind, Except.bind, pure, Except.pure]
  cases extractDate date time with
  | error e => rfl
  | ok r =>
    obtain ⟨year, month, day, hour, yearAndMonth⟩ := r
    rfl

/-- Witness of the amended C10 on the sidecar `p9.json`. -/
theorem extractMeta_ignores_extra_parts_witness :
    extractMeta (tableUnmarshal sampleTexts) (readFile (tableFS sampleFS) "p9.json") =
        Except.ok (true, "2021-01-15", "10:20:30", ["a"],
          ([] : List Category).map Category.Name) ∧
      ∀ (fs : String → Option (List UInt8)) (acc : Facets) (metaPath : String),
        readFile fs metaPath = readFile (tableFS sampleFS) "p9.json" →
        concatStep fs (tableUnmarshal sampleTexts) acc metaPath =
          match extractDate "2021-01-15" "10:20:30" with
          | Except.error e => Except.error e
          | Except.ok (year, month, day, hour, yearAndMonth) =>
            Except.ok
              { tags := acc.tags
                categories := acc.categories
                years := acc.years ++ [year]
                months := acc.months ++ [month]
                days := acc.days ++ [day]
                hours := acc.hours ++ [hour]
                yearMonths := acc.yearMonths ++ [yearAndMonth]
                weeks := acc.weeks ++ [weekMapGet (parsedWeekdayName "2021-01-15")] } :=
  extractMeta_ignores_extra_parts (tableUnmarshal sampleTexts)
    (readFile (tableFS sampleFS) "p9.json")
    ⟨"2021-01-15 10:20:30 +0800", ["a"], []⟩ rfl "2021-01-15" "10:20:30" ["+0800"] rfl

/-! ## Splitting on a character -/

theorem splitEach_ne_nil (sep : Char) (l : List Char) : splitEach sep l ≠ [] := by
  cases l with
  | nil => simp [splitEach]
  | cons c cs =>
    unfold splitEach
    split
    · simp
    · cases splitEach sep cs <;> simp [consHead]

theorem splitEach_of_not_mem (sep : Char) (l : List Char) (h : sep ∉ l) :
    splitEach sep l = [l] := by
  induction l with
  | nil => rfl
  | cons c cs ih =>
    have hc : c ≠ sep := fun e => h (e ▸ List.mem_cons_self c cs)
    have hcs : sep ∉ cs := fun e => h (List.mem_cons_of_mem c e)
    simp [splitEach, hc, ih hcs, consHead]

theorem splitEach_append_sep (sep : Char) (a b : List Char) (h : sep ∉ a) :
    splitEach sep (a ++ sep :: b) = a :: splitEach sep b := by
  induction a with
  | nil => simp [splitEach]
  | cons c cs ih =>
    have hc : c ≠ sep := fun e => h (e ▸ List.mem_cons_self c cs)
    have hcs : sep ∉ cs := fun e => h (List.mem_cons_of_mem c e)
    simp [splitEach, hc, ih hcs, consHead]

theorem splitEach_head (sep : Char) (l : List Char) :
    (splitEach sep l)[0]? = some (l.takeWhile (fun c => c != sep)) := by
  induction l with
  | nil => rfl
  | cons c cs ih =>
    by_cases hc : c = sep
    · simp [splitEach, hc]
    · have hne : (c != sep) = true := by simpa using hc
      simp only [splitEach, hc, if_false, List.takeWhile_cons, hne, if_true]
      cases hs : splitEach sep cs with
      | nil => exact absurd hs (splitEach_ne_nil sep cs)
      | cons piece pieces =>
        rw [hs] at ih
        simp only [List.getElem?_cons_zero, Option.some.injEq] at ih
        simp [consHead, ih]

theorem index_first_colon (time : String) :
    index (splitOnChar ':' time) 0 = Except.ok (hourOf time) := by
  have h := splitEach_head ':' time.toList
  simp only [index, splitOnChar, hourOf, List.getElem?_map, h, Option.map_some']

theorem extractDate_of_split (date time year month day : String) (more : List String)
    (h : splitOnChar '-' date = year :: month :: day :: more) :
    extractDate date time =
      Except.ok (year, month, day, hourOf time, findYearMonth date) := by
  have h0 : index (year :: month :: day :: more) 0 = Except.ok year := by simp [index]
  have h1 : index (year :: month :: day :: more) 1 = Except.ok month := by simp [index]
  have h2 : index (year :: month :: day :: more) 2 = Except.ok day := by simp [index]
  simp only [extractDate, h, h0, h1, h2, index_first_colon, bind, Except.bind, pure,
    Except.pure]

theorem concatStep_of_date (fs : String → Option (List UInt8))
    (unmarshal : List UInt8 → Option Meta) (acc : Facets) (metaPath : String)
    (metaRec : Meta) (hparse : unmarshal (readFile fs metaPath) = some metaRec)
    (date time : String) (rest : List String)
    (hsplit : splitWhitespace metaRec.Date = date :: time :: rest)
    (year month day hour yearAndMonth : String)
    (hdate : extractDate date time = Except.ok (year, month, day, hour, yearAndMonth)) :
    concatStep fs unmarshal acc metaPath =
      Except.ok
        { tags := acc.tags
          categories := acc.categories
          years := acc.years ++ [year]
          months := acc.months ++ [month]
          days := acc.days ++ [day]
          hours := acc.hours ++ [hour]
          yearMonths := acc.yearMonths ++ [yearAndMonth]
          weeks := acc.weeks ++ [weekMapGet (parsedWeekdayName date)] } := by
  have hmeta : extractMeta unmarshal (readFile fs metaPath) =
      Except.ok (true, date, time, metaRec.Tags, metaRec.Categories.map Category.Name) := by
    simp [extractMeta, hparse, hsplit, index, bind, Except.bind, pure, Except.pure,
      categories_names]
  simp only [concatStep, concatBody, hmeta, hdate, bind, Except.bind, pure, Except.pure]
  rfl

/-! ## Claims on `extractDate` -/

/-- C11, as stated, fails: the date `2021-01-15-x` splits on `-` into four
components, yet `extractDate` decomposes it and `concat` does not skip the
file. -/
theorem extractDate_four_components_counterexample :
    splitOnChar '-' "2021-01-15-x" = ["2021", "01", "15", "x"] ∧
      extractDate "2021-01-15-x" "10:20:30" =
        Except.ok ("2021", "01", "15", "10", "2021-01") ∧
      concat (tableFS dateFS) (tableUnmarshal dateTexts) ["d1.json"] =
        Except.ok
          { tags := []
            categories := []
            years := ["2021"]
            months := ["01"]
            days := ["15"]
            hours := ["10"]
            yearMonths := ["2021-01"]
            weeks := ["周一"] } :=
  ⟨rfl, rfl, rfl⟩

/-- The date `2021-1` splits on `-` into two components: `extractDate` panics
at `dateParts[2]`, and so does `concat`, whatever files follow. -/
theorem extractDate_two_components_faults :
    splitOnChar '-' "2021-1" = ["2021", "1"] ∧
      extractDate "2021-1" "10:20:30" = Except.error Fault.indexOutOfRange ∧
      concat (tableFS dateFS) (tableUnmarshal dateTexts) ["d2.json", "d6.json"] =
        Except.error Fault.indexOutOfRange :=
  ⟨rfl, rfl, rfl⟩

/-- C11, amended: for every date string that splits on `-` into three or more
components, `extractDate` does not fail: it returns the first three components
as year, month and day, ignoring the others, and `concat` does not skip the
file but appends its facets. -/
theorem extractDate_keeps_first_three (date time year month day : String)
    (more : List String) (hparts : splitOnChar '-' date = year :: month :: day :: more) :
    extractDate date time =
        Except.ok (year, month, day, hourOf time, findYearMonth date) ∧
      ∀ (fs : String → Option (List UInt8)) (unmarshal : List UInt8 → Option Meta)
        (acc : Facets) (metaPath : String) (metaRec : Meta) (rest : List String),
        unmarshal (readFile fs metaPath) = some metaRec →
        splitWhitespace metaRec.Date = date :: time :: rest →
        concatStep fs unmarshal acc metaPath =
          Except.ok
            { tags := acc.tags
              categories := acc.categories
              years := acc.years ++ [year]
              months := acc.months ++ [month]
              days := acc.days ++ [day]
              hours := acc.hours ++ [hourOf time]
              yearMonths := acc.yearMonths ++ [findYearMonth date]
              weeks := acc.weeks ++ [weekMapGet (parsedWeekdayName date)] } := by
  have hdate := extractDate_of_split date time year month day more hparts
  refine ⟨hdate, ?_⟩
  intro fs unmarshal acc metaPath metaRec rest hparse hsplit
  exact concatStep_of_date fs unmarshal acc metaPath metaRec hparse date time rest hsplit
    year month day (hourOf time) (findYearMonth date) hdate

/-- Witness of the amended C11 on the date `2021-01-15-x`. -/
theorem extractDate_keeps_first_three_witness :
    extractDate "2021-01-15-x" "10:20:30" =
        Except.ok ("2021", "01", "15", hourOf "10:20:30", findYearMonth "2021-01-15-x") ∧
      ∀ (fs : String → Option (List UInt8)) (unmarshal : List UInt8 → Option Meta)
        (acc : Facets) (metaPath : String) (metaRec : Meta) (rest : List String),
        unmarshal (readFile fs metaPath) = some metaRec →
        splitWhitespace metaRec.Date = "2021-01-15-x" :: "10:20:30" :: rest →
        concatStep fs unmarshal acc metaPath =
          Except.ok
            { tags := acc.tags
              categories := acc.categories
              years := acc.years ++ ["2021"]
              months := acc.months ++ ["01"]
              days := acc.days ++ ["15"]
              hours := acc.hours ++ [hourOf "10:20:30"]
              yearMonths := acc.yearMonths ++ [findYearMonth "2021-01-15-x"]
              weeks := acc.weeks ++ [weekMapGet (parsedWeekdayName "2021-01-15-x")] } :=
  extractDate_keeps_first_three "2021-01-15-x" "10:20:30" "2021" "01" "15" ["x"] rfl

theorem string_mk_toList (s : String) : String.mk s.toList = s := by
  cases s
  rfl

theorem toList_ymd (y m d : String) :
    (y ++ "-" ++ m ++ "-" ++ d).toList = y.toList ++ '-' :: (m.toList ++ '-' :: d.toList) := by
  simp [String.toList, String.data_append]

theorem splitOnChar_ymd (y m d : String) (hy : '-' ∉ y.toList) (hm : '-' ∉ m.toList)
    (hd : '-' ∉ d.toList) :
    splitOnChar '-' (y ++ "-" ++ m ++ "-" ++ d) = [y, m, d] := by
  unfold splitOnChar
  rw [toList_ymd, splitEach_append_sep '-' _ _ hy, splitEach_append_sep '-' _ _ hm,
    splitEach_of_not_mem '-' _ hd]
  simp [string_mk_toList]

/-- C12: for every date of the form `Y-M-D` with `Y`, `M`, `D` free of `-` and
every time string, `extractDate` returns year `Y`, month `M`, day `D` and as
hour the part of the time before its first `:`; in particular
`extractDate("2021-01-15", "10:20:30")` gives year `2021`, month `01`,
day `15`, hour `10` and year-month `2021-01`. -/
theorem extractDate_ymd (y m d time : String) (hy : '-' ∉ y.toList) (hm : '-' ∉ m.toList)
    (hd : '-' ∉ d.toList) :
    extractDate (y ++ "-" ++ m ++ "-" ++ d) time =
        Except.ok (y, m, d, String.mk (time.toList.takeWhile (fun c => c != ':')),
          findYearMonth (y ++ "-" ++ m ++ "-" ++ d)) ∧
      extractDate "2021-01-15" "10:20:30" =
        Except.ok ("2021", "01", "15", "10", "2021-01") :=
  ⟨extractDate_of_split _ time y m d [] (splitOnChar_ymd y m d hy hm hd), rfl⟩

/-- Witness of C12 on the date `1999-12-31` and the time `23:59`. -/
theorem extractDate_ymd_witness :
    extractDate ("1999" ++ "-" ++ "12" ++ "-" ++ "31") "23:59" =
        Except.ok ("1999", "12", "31",
          String.mk ("23:59".toList.takeWhile (fun c => c != ':')),
          findYearMonth ("1999" ++ "-" ++ "12" ++ "-" ++ "31")) ∧
      extractDate "2021-01-15" "10:20:30" =
        Except.ok ("2021", "01", "15", "10", "2021-01") :=
  extractDate_ymd "1999" "12" "31" "23:59" (by decide) (by decide) (by decide)

theorem findYearMonth_spec (date : String) :
    (yearMonthShape (date.toList.take 7) →
        findYearMonth date = String.mk (date.toList.take 7)) ∧
      (¬ yearMonthShape (date.toList.take 7) → findYearMonth date = "") := by
  unfold findYearMonth yearMonthShape
  rcases h : date.toList with
    _ | ⟨y1, _ | ⟨y2, _ | ⟨y3, _ | ⟨y4, _ | ⟨dash, _ | ⟨m1, _ | ⟨m2, tail⟩⟩⟩⟩⟩⟩⟩
  case cons.cons.cons.cons.cons.cons.cons =>
    simp only [List.take_succ_cons, List.take_zero]
    constructor
    · rintro ⟨a1, a2, a3, a4, b1, b2, heq, h1, h2, h3, h4, h5, h6⟩
      simp only [List.cons.injEq, and_true] at heq
      obtain ⟨e1, e2, e3, e4, e5, e6, e7⟩ := heq
      subst e1 e2 e3 e4 e5 e6 e7
      simp [h1, h2, h3, h4, h5, h6]
    · intro hn
      rw [if_neg]
      intro hc
      simp only [Bool.and_eq_true, decide_eq_true_eq] at hc
      obtain ⟨⟨⟨⟨⟨⟨h1, h2⟩, h3⟩, h4⟩, h5⟩, h6⟩, h7⟩ := hc
      subst h5
      exact hn ⟨y1, y2, y3, y4, m1, m2, rfl, h1, h2, h3, h4, h6, h7⟩
  all_goals simp

/-- C13, as stated, fails: the leading characters of the date `21-01-15` do
not have the shape `YYYY-MM`, yet `extractDate` returns, with the empty string
as year-month, and `concat` appends that empty string to `yearMonths`. -/
theorem extractDate_year_month_counterexample :
    ¬ yearMonthShape ("21-01-15".toList.take 7) ∧
      extractDate "21-01-15" "10:20:30" = Except.ok ("21", "01", "15", "10", "") ∧
      concat (tableFS dateFS) (tableUnmarshal dateTexts) ["d3.json"] =
        Except.ok
          { tags := []
            categories := []
            years := ["21"]
            months := ["01"]
            days := ["15"]
            hours := ["10"]
            yearMonths := [""]
            weeks := ["周一"] } := by
  refine ⟨?_, rfl, rfl⟩
  rintro ⟨y1, y2, y3, y4, m1, m2, heq, -, -, h3, -⟩
  have hl : "21-01-15".toList.take 7 = ['2', '1', '-', '0', '1', '-', '1'] := rfl
  rw [hl] at heq
  simp only [List.cons.injEq] at heq
  obtain ⟨-, -, e3, -⟩ := heq
  rw [← e3] at h3
  exact absurd h3 (by decide)

/-- C13, amended: for every date string with at least three `-`-separated
components, `extractDate` yields as year-month the leading 7 characters of the
date when they are four digits, `-`, two digits, and the empty string when
they are not; in the second case the decomposition does not fail and the file
contributes the empty string to `yearMonths`. -/
theorem extractDate_year_month (date time year month day : String) (more : List String)
    (hparts : splitOnChar '-' date = year :: month :: day :: more) :
    (yearMonthShape (date.toList.take 7) →
        extractDate date time =
          Except.ok (year, month, day, hourOf time, String.mk (date.toList.take 7))) ∧
      (¬ yearMonthShape (date.toList.take 7) →
        extractDate date time = Except.ok (year, month, day, hourOf time, "") ∧
        ∀ (fs : String → Option (List UInt8)) (unmarshal : List UInt8 → Option Meta)
          (acc : Facets) (metaPath : String) (metaRec : Meta) (rest : List String),
          unmarshal (readFile fs metaPath) = some metaRec →
          splitWhitespace metaRec.Date = date :: time :: rest →
          ∃ acc1 : Facets, concatStep fs unmarshal acc metaPath = Except.ok acc1 ∧
            acc1.yearMonths = acc.yearMonths ++ [""]) := by
  have hdate := extractDate_of_split date time year month day more hparts
  refine ⟨?_, ?_⟩
  · intro hshape
    rw [hdate, (findYearMonth_spec date).1 hshape]
  · intro hshape
    rw [(findYearMonth_spec date).2 hshape] at hdate
    refine ⟨hdate, ?_⟩
    intro fs unmarshal acc metaPath metaRec rest hparse hsplit
    exact ⟨_, concatStep_of_date fs unmarshal acc metaPath metaRec hparse date time rest hsplit
      year month day (hourOf time) "" hdate, rfl⟩

/-- Witness of the amended C13 on the date `2021-01-15`. -/
theorem extractDate_year_month_witness :
    (yearMonthShape ("2021-01-15".toList.take 7) →
        extractDate "2021-01-15" "10:20:30" =
          Except.ok ("2021", "01", "15", hourOf "10:20:30",
            String.mk ("2021-01-15".toList.take 7))) ∧
      (¬ yearMonthShape ("2021-01-15".toList.take 7) →
        extractDate "2021-01-15" "10:20:30" =
          Except.ok ("2021", "01", "15", hourOf "10:20:30", "") ∧
        ∀ (fs : String → Option (List UInt8)) (unmarshal : List UInt8 → Option Meta)
          (acc : Facets) (metaPath : String) (metaRec : Meta) (rest : List String),
          unmarshal (readFile fs metaPath) = some metaRec →
          splitWhitespace metaRec.Date = "2021-01-15" :: "10:20:30" :: rest →
          ∃ acc1 : Facets, concatStep fs unmarshal acc metaPath = Except.ok acc1 ∧
            acc1.yearMonths = acc.yearMonths ++ [""]) :=
  extractDate_year_month "2021-01-15" "10:20:30" "2021" "01" "15" [] rfl

/-! ## The weekday of a calendar date -/

theorem isLeap_eq_specLeap (year : Nat) : isLeap year = specLeap year := by
  unfold isLeap specLeap
  by_cases h4 : year % 4 = 0 <;> by_cases h100 : year % 100 = 0 <;>
    by_cases h400 : year % 400 = 0 <;> simp [h4, h100, h400] <;> omega

theorem specLeap_iff (year : Nat) :
    specLeap year = true ↔ (year % 4 = 0 ∧ year % 100 ≠ 0) ∨ year % 400 = 0 := by
  simp [specLeap]

theorem daysSinceEpoch_succ (year : Nat) :
    daysSinceEpoch (year + 1) = daysSinceEpoch year + specYearLength year := by
  have hl := specLeap_iff year
  unfold specYearLength
  split
  · rename_i h
    have h1 := hl.mp h
    simp only [daysSinceEpoch]
    omega
  · rename_i h
    have h1 : ¬ ((year % 4 = 0 ∧ year % 100 ≠ 0) ∨ year % 400 = 0) := fun e => h (hl.mpr e)
    simp only [daysSinceEpoch]
    omega

theorem daysSinceEpoch_eq (year : Nat) :
    daysSinceEpoch year = daysSinceEpoch 0 + specDaysBeforeYear year := by
  induction year with
  | zero => rfl
  | succ y ih => rw [daysSinceEpoch_succ, ih, specDaysBeforeYear]; omega

theorem daysSinceEpoch_zero_mod : daysSinceEpoch 0 % 7 = 5 := by
  simp only [daysSinceEpoch]

theorem digitChar_spec (n : Nat) (h : n < 10) :
    isDigitClass (digitChar n) = true ∧ digitVal (digitChar n) = n ∧ digitChar n ≠ '-' := by
  interval_cases n <;> decide

theorem daysIn_eq_specMonthLength (year month : Nat) (h1 : 1 ≤ month) (h12 : month ≤ 12) :
    daysIn month year = specMonthLength year month := by
  unfold daysIn
  rw [isLeap_eq_specLeap]
  interval_cases month <;> cases h : specLeap year <;> simp [daysBefore, specMonthLength, h]

theorem dayOfYear_eq (year month : Nat) (h1 : 1 ≤ month) (h12 : month ≤ 12) :
    daysBefore.getD (month - 1) 0 + (if isLeap year && decide (3 ≤ month) then 1 else 0) =
      specDaysBeforeMonth year month := by
  rw [isLeap_eq_specLeap]
  unfold specDaysBeforeMonth
  interval_cases month <;> cases h : specLeap year <;>
    simp [daysBefore, specMonthLength, List.range_succ, h]

theorem weekdayOf_eq_specWeekday (year month day : Nat) (h1 : 1 ≤ month) (h12 : month ≤ 12)
    (hd : 1 ≤ day) : weekdayOf year month day = specWeekday year month day := by
  have hA := daysSinceEpoch_eq year
  have h0 := daysSinceEpoch_zero_mod
  have hB := dayOfYear_eq year month h1 h12
  unfold weekdayOf absDays specWeekday
  omega

theorem parseDate_formatDate (year month day : Nat) (h : validDate year month day) :
    parseDate (formatDate year month day) = some (year, month, day) := by
  obtain ⟨hy, hm1, hm12, hd1, hd⟩ := h
  have hday : day ≤ 31 := by
    have : specMonthLength year month ≤ 31 := by
      unfold specMonthLength
      interval_cases month <;> simp only [] <;> first | omega | (split <;> omega)
    omega
  obtain ⟨a1, a2, -⟩ := digitChar_spec (year / 1000) (by omega)
  obtain ⟨b1, b2, -⟩ := digitChar_spec (year / 100 % 10) (by omega)
  obtain ⟨c1, c2, -⟩ := digitChar_spec (year / 10 % 10) (by omega)
  obtain ⟨d1, d2, -⟩ := digitChar_spec (year % 10) (by omega)
  obtain ⟨e1, e2, -⟩ := digitChar_spec (month / 10) (by omega)
  obtain ⟨f1, f2, -⟩ := digitChar_spec (month % 10) (by omega)
  obtain ⟨g1, g2, -⟩ := digitChar_spec (day / 10) (by omega)
  obtain ⟨k1, k2, -⟩ := digitChar_spec (day % 10) (by omega)
  have hyear : year / 1000 * 1000 + year / 100 % 10 * 100 + year / 10 % 10 * 10 + year % 10 =
      year := by omega
  have hmonth : month / 10 * 10 + month % 10 = month := by omega
  have hdayv : day / 10 * 10 + day % 10 = day := by omega
  have hin := daysIn_eq_specMonthLength year month hm1 hm12
  simp only [parseDate, formatDate, String.toList, a1, a2, b1, b2, c1, c2, d1, d2, e1, e2, f1, f2,
    g1, g2, k1, k2, hyear, hmonth, hdayv, hin, Bool.and_self, decide_True, if_true]
  have c1 : ¬ (month = 0 ∨ 12 < month) := by omega
  have c2 : ¬ (day < 1 ∨ specMonthLength year month < day) := by omega
  simp [c1, c2]
  omega

theorem splitOnChar_formatDate (year month day : Nat) (h : validDate year month day) :
    splitOnChar '-' (formatDate year month day) =
      [String.mk [digitChar (year / 1000), digitChar (year / 100 % 10),
          digitChar (year / 10 % 10), digitChar (year % 10)],
        String.mk [digitChar (month / 10), digitChar (month % 10)],
        String.mk [digitChar (day / 10), digitChar (day % 10)]] := by
  obtain ⟨hy, hm1, hm12, hd1, hd⟩ := h
  have hday : day ≤ 31 := by
    have : specMonthLength year month ≤ 31 := by
      unfold specMonthLength
      interval_cases month <;> simp only [] <;> first | omega | (split <;> omega)
    omega
  have a := (digitChar_spec (year / 1000) (by omega)).2.2
  have b := (digitChar_spec (year / 100 % 10) (by omega)).2.2
  have c := (digitChar_spec (year / 10 % 10) (by omega)).2.2
  have d := (digitChar_spec (year % 10) (by omega)).2.2
  have e := (digitChar_spec (month / 10) (by omega)).2.2
  have f := (digitChar_spec (month % 10) (by omega)).2.2
  have g := (digitChar_spec (day / 10) (by omega)).2.2
  have k := (digitChar_spec (day % 10) (by omega)).2.2
  simp [splitOnChar, formatDate, splitEach, consHead, a, b, c, d, e, f, g, k]

/-- C14: for every valid calendar date `YYYY-MM-DD`, the weekday occurrence
`concat` contributes for a sidecar with that date is the `WeekMap` label of the
day of the week of that date, counted day by day; in particular the date
`2021-01-04` contributes the Monday label `周一`. -/
theorem concat_weekday_label (year month day : Nat) (hvalid : validDate year month day) :
    parsedWeekdayName (formatDate year month day) =
        weekdayName (specWeekday year month day) ∧
      (∀ (fs : String → Option (List UInt8)) (unmarshal : List UInt8 → Option Meta)
          (acc : Facets) (metaPath : String) (metaRec : Meta) (time : String)
          (rest : List String),
          unmarshal (readFile fs metaPath) = some metaRec →
          splitWhitespace metaRec.Date = formatDate year month day :: time :: rest →
          ∃ acc1 : Facets, concatStep fs unmarshal acc metaPath = Except.ok acc1 ∧
            acc1.weeks =
              acc.weeks ++ [weekMapGet (weekdayName (specWeekday year month day))]) ∧
      formatDate 2021 1 4 = "2021-01-04" ∧
      weekdayName (specWeekday 2021 1 4) = "Monday" ∧
      weekMapGet (weekdayName (specWeekday 2021 1 4)) = "周一" := by
  have hname : parsedWeekdayName (formatDate year month day) =
      weekdayName (specWeekday year month day) := by
    unfold parsedWeekdayName
    rw [parseDate_formatDate year month day hvalid]
    simp only
    rw [weekdayOf_eq_specWeekday year month day hvalid.2.1 hvalid.2.2.1 hvalid.2.2.2.1]
  have hmonday : specWeekday 2021 1 4 = 1 := by
    rw [← weekdayOf_eq_specWeekday 2021 1 4 (by decide) (by decide) (by decide)]
    simp only [weekdayOf, absDays, daysSinceEpoch, daysBefore, isLeap]
    decide
  refine ⟨hname, ?_, rfl, ?_, ?_⟩
  rotate_left
  · rw [hmonday]
    rfl
  · rw [hmonday]
    rfl
  intro fs unmarshal acc metaPath metaRec time rest hparse hsplit
  have hdate := extractDate_of_split (formatDate year month day) time _ _ _ []
    (splitOnChar_formatDate year month day hvalid)
  refine ⟨_, concatStep_of_date fs unmarshal acc metaPath metaRec hparse _ time rest hsplit
    _ _ _ _ _ hdate, ?_⟩
  simp only [hname]

/-- Witness of C14 on the date `2021-01-04`. -/
theorem concat_weekday_label_witness :
    parsedWeekdayName (formatDate 2021 1 4) = weekdayName (specWeekday 2021 1 4) ∧
      (∀ (fs : String → Option (List UInt8)) (unmarshal : List UInt8 → Option Meta)
          (acc : Facets) (metaPath : String) (metaRec : Meta) (time : String)
          (rest : List String),
          unmarshal (readFile fs metaPath) = some metaRec →
          splitWhitespace metaRec.Date = formatDate 2021 1 4 :: time :: rest →
          ∃ acc1 : Facets, concatStep fs unmarshal acc metaPath = Except.ok acc1 ∧
            acc1.weeks = acc.weeks ++ [weekMapGet (weekdayName (specWeekday 2021 1 4))]) ∧
      formatDate 2021 1 4 = "2021-01-04" ∧
      weekdayName (specWeekday 2021 1 4) = "Monday" ∧
      weekMapGet (weekdayName (specWeekday 2021 1 4)) = "周一" :=
  concat_weekday_label 2021 1 4 ⟨by decide, by decide, by decide, by decide, by decide⟩

theorem digitChar_digitVal (c : Char) (h : isDigitClass c = true) :
    digitChar (digitVal c) = c ∧ digitVal c < 10 := by
  simp only [isDigitClass, Bool.and_eq_true, decide_eq_true_eq] at h
  obtain ⟨h0, h9⟩ := h
  have h0n : 48 ≤ c.toNat := h0
  have h9n : c.toNat ≤ 57 := h9
  unfold digitChar digitVal
  have e : ('0' : Char).toNat = 48 := rfl
  rw [e]
  refine ⟨?_, by omega⟩
  have : 48 + (c.toNat - 48) = c.toNat := by omega
  rw [this, Char.ofNat_toNat]

theorem parseDate_some (s : String) (year month day : Nat)
    (h : parseDate s = some (year, month, day)) :
    validDate year month day ∧ s = formatDate year month day := by
  unfold parseDate at h
  split at h
  · rename_i y1 y2 y3 y4 dash1 m1 m2 dash2 d1 d2 hs
    split at h
    · rename_i hc
      simp only [Bool.and_eq_true, decide_eq_true_eq] at hc
      obtain ⟨⟨⟨⟨⟨⟨⟨⟨⟨a1, a2⟩, a3⟩, a4⟩, e1⟩, b1⟩, b2⟩, e2⟩, c1⟩, c2⟩ := hc
      obtain ⟨fa1, la1⟩ := digitChar_digitVal y1 a1
      obtain ⟨fa2, la2⟩ := digitChar_digitVal y2 a2
      obtain ⟨fa3, la3⟩ := digitChar_digitVal y3 a3
      obtain ⟨fa4, la4⟩ := digitChar_digitVal y4 a4
      obtain ⟨fb1, lb1⟩ := digitChar_digitVal m1 b1
      obtain ⟨fb2, lb2⟩ := digitChar_digitVal m2 b2
      obtain ⟨fc1, lc1⟩ := digitChar_digitVal d1 c1
      obtain ⟨fc2, lc2⟩ := digitChar_digitVal d2 c2
      simp only at h
      split at h
      · exact absurd h (by simp)
      · rename_i hm
        split at h
        · exact absurd h (by simp)
        · rename_i hd
          simp only [Option.some.injEq, Prod.mk.injEq] at h
          obtain ⟨hy, hmo, hda⟩ := h
          simp only [Bool.or_eq_true, decide_eq_true_eq, not_or, not_lt] at hm hd
          have hm12 : 1 ≤ month ∧ month ≤ 12 := by omega
          have hin := daysIn_eq_specMonthLength year month hm12.1 hm12.2
          rw [hmo, hy, hda, hin] at hd
          refine ⟨⟨by omega, hm12.1, hm12.2, by omega, by omega⟩, ?_⟩
          have q1 : year / 1000 = digitVal y1 := by omega
          have q2 : year / 100 % 10 = digitVal y2 := by omega
          have q3 : year / 10 % 10 = digitVal y3 := by omega
          have q4 : year % 10 = digitVal y4 := by omega
          have q5 : month / 10 = digitVal m1 := by omega
          have q6 : month % 10 = digitVal m2 := by omega
          have q7 : day / 10 = digitVal d1 := by omega
          have q8 : day % 10 = digitVal d2 := by omega
          unfold formatDate
          rw [q1, q2, q3, q4, q5, q6, q7, q8, fa1, fa2, fa3, fa4, fb1, fb2, fc1, fc2]
          rw [e1, e2] at hs
          rw [← hs]
          exact (string_mk_toList s).symm
    · exact absurd h (by simp)
  · exact absurd h (by simp)

theorem parseDate_eq_none (s : String) (h : ¬ isCalendarDateText s) : parseDate s = none := by
  cases hp : parseDate s with
  | none => rfl
  | some r =>
    obtain ⟨year, month, day⟩ := r
    exact absurd ⟨year, month, day, parseDate_some s year month day hp⟩ h

theorem zero_time_weekday : weekMapGet (weekdayName (weekdayOf 1 1 1)) = "周一" := by
  have h : weekdayOf 1 1 1 = 1 := by
    simp only [weekdayOf, absDays, daysSinceEpoch, daysBefore, isLeap]
    decide
  rw [h]
  rfl

/-- C15, as stated, fails: the date parts `2021-02-30` and `2021-13-01` have
three components and are not calendar dates, yet `concat` keeps both files:
each contributes its year, month, day, hour and year-month, and the label `周一`
to the weekday sequence. -/
theorem concat_invalid_date_counterexample :
    splitOnChar '-' "2021-02-30" = ["2021", "02", "30"] ∧
      ¬ isCalendarDateText "2021-02-30" ∧
      splitOnChar '-' "2021-13-01" = ["2021", "13", "01"] ∧
      ¬ isCalendarDateText "2021-13-01" ∧
      concat (tableFS dateFS) (tableUnmarshal dateTexts) ["d4.json", "d5.json"] =
        Except.ok
          { tags := []
            categories := []
            years := ["2021", "2021"]
            months := ["02", "13"]
            days := ["30", "01"]
            hours := ["10", "10"]
            yearMonths := ["2021-02", "2021-13"]
            weeks := ["周一", "周一"] } := by
  refine ⟨rfl, ?_, rfl, ?_, rfl⟩
  · rintro ⟨year, month, day, hv, he⟩
    have h := parseDate_formatDate year month day hv
    have hn : parseDate "2021-02-30" = none := rfl
    rw [← he, hn] at h
    exact Option.noConfusion h
  · rintro ⟨year, month, day, hv, he⟩
    have h := parseDate_formatDate year month day hv
    have hn : parseDate "2021-13-01" = none := rfl
    rw [← he, hn] at h
    exact Option.noConfusion h

/-- C15, amended: for every sidecar whose date part has three or more
`-`-separated components and is not the text `YYYY-MM-DD` of a valid calendar
date, the decomposition does not fail and the file is not excluded: `concat`
appends its year, month, day, hour and year-month as `extractDate` returns
them, and appends to the weekday sequence the label `周一` of the zero time. -/
theorem concat_keeps_invalid_date (date time year month day : String) (more : List String)
    (hparts : splitOnChar '-' date = year :: month :: day :: more)
    (hinvalid : ¬ isCalendarDateText date)
    (fs : String → Option (List UInt8)) (unmarshal : List UInt8 → Option Meta)
    (acc : Facets) (metaPath : String) (metaRec : Meta) (rest : List String)
    (hparse : unmarshal (readFile fs metaPath) = some metaRec)
    (hsplit : splitWhitespace metaRec.Date = date :: time :: rest) :
    concatStep fs unmarshal acc metaPath =
      Except.ok
        { tags := acc.tags
          categories := acc.categories
          years := acc.years ++ [year]
          months := acc.months ++ [month]
          days := acc.days ++ [day]
          hours := acc.hours ++ [hourOf time]
          yearMonths := acc.yearMonths ++ [findYearMonth date]
          weeks := acc.weeks ++ ["周一"] } := by
  have hdate := extractDate_of_split date time year month day more hparts
  have hstep := concatStep_of_date fs unmarshal acc metaPath metaRec hparse date time rest hsplit
    year month day (hourOf time) (findYearMonth date) hdate
  have hweek : weekMapGet (parsedWeekdayName date) = "周一" := by
    unfold parsedWeekdayName
    rw [parseDate_eq_none date hinvalid]
    exact zero_time_weekday
  rw [hstep, hweek]

/-- Witness of the amended C15 on the sidecar `d4.json`, dated `2021-02-30`. -/
theorem concat_keeps_invalid_date_witness :
    concatStep (tableFS dateFS) (tableUnmarshal dateTexts) Facets.empty "d4.json" =
      Except.ok
        { tags := Facets.empty.tags
          categories := Facets.empty.categories
          years := Facets.empty.years ++ ["2021"]
          months := Facets.empty.months ++ ["02"]
          days := Facets.empty.days ++ ["30"]
          hours := Facets.empty.hours ++ [hourOf "10:20:30"]
          yearMonths := Facets.empty.yearMonths ++ [findYearMonth "2021-02-30"]
          weeks := Facets.empty.weeks ++ ["周一"] } :=
  concat_keeps_invalid_date "2021-02-30" "10:20:30" "2021" "02" "30" [] rfl
    (by
      rintro ⟨year, month, day, hv, he⟩
      have h := parseDate_formatDate year month day hv
      have hn : parseDate "2021-02-30" = none := rfl
      rw [← he, hn] at h
      exact Option.noConfusion h)
    (tableFS dateFS) (tableUnmarshal dateTexts) Facets.empty "d4.json"
    ⟨"2021-02-30 10:20:30", ["a"], []⟩ [] rfl rfl

/-! ## Claims on `pickArticlefile` -/

theorem startsWith_iff (p t : List Char) : startsWith p t = true ↔ ∃ post, t = p ++ post := by
  induction p generalizing t with
  | nil => simp [startsWith]
  | cons a p ih =>
    cases t with
    | nil => simp [startsWith]
    | cons c cs =>
      simp only [startsWith, Bool.and_eq_true, decide_eq_true_eq, ih, List.cons_append,
        List.cons.injEq]
      constructor
      · rintro ⟨rfl, post, rfl⟩
        exact ⟨post, rfl, rfl⟩
      · rintro ⟨post, rfl, rfl⟩
        exact ⟨rfl, post, rfl⟩

theorem containsChars_iff (sub t : List Char) :
    containsChars sub t = true ↔ ∃ pre post, t = pre ++ sub ++ post := by
  induction t with
  | nil =>
    simp only [containsChars, startsWith_iff]
    constructor
    · rintro ⟨post, h⟩
      exact ⟨[], post, by simpa using h⟩
    · rintro ⟨pre, post, h⟩
      have h1 : pre = [] := by
        cases pre with
        | nil => rfl
        | cons a l => simp at h
      subst h1
      exact ⟨post, by simpa using h⟩
  | cons c cs ih =>
    simp only [containsChars, Bool.or_eq_true, startsWith_iff, ih]
    constructor
    · rintro (⟨post, h⟩ | ⟨pre, post, h⟩)
      · exact ⟨[], post, by simpa using h⟩
      · exact ⟨c :: pre, post, by simp [h]⟩
    · rintro ⟨pre, post, h⟩
      cases pre with
      | nil => exact Or.inl ⟨post, by simpa using h⟩
      | cons a pre =>
        simp only [List.cons_append, List.cons.injEq] at h
        exact Or.inr ⟨pre, post, by simpa using h.2⟩

theorem stringsContains_iff (s sub : String) :
    stringsContains s sub = true ↔ hasSubstring s sub :=
  containsChars_iff sub.toList s.toList

theorem archiveAt_iff (t : List Char) :
    archiveAt t = true ↔
      ∃ (post : List Char) (y1 y2 y3 y4 m1 m2 d1 d2 : Char),
        isDigitClass y1 = true ∧ isDigitClass y2 = true ∧ isDigitClass y3 = true ∧
        isDigitClass y4 = true ∧ isDigitClass m1 = true ∧ isDigitClass m2 = true ∧
        isDigitClass d1 = true ∧ isDigitClass d2 = true ∧
        t = ['/', y1, y2, y3, y4, '/', m1, m2, '/', d1, d2, '/'] ++ post := by
  constructor
  · intro h
    unfold archiveAt at h
    split at h
    · rename_i s1 y1 y2 y3 y4 s2 m1 m2 s3 d1 d2 s4 post
      simp only [Bool.and_eq_true, decide_eq_true_eq] at h
      obtain ⟨⟨⟨⟨⟨⟨⟨⟨⟨⟨⟨e1, a1⟩, a2⟩, a3⟩, a4⟩, e2⟩, b1⟩, b2⟩, e3⟩, c1⟩, c2⟩, e4⟩ := h
      subst e1 e2 e3 e4
      exact ⟨post, y1, y2, y3, y4, m1, m2, d1, d2, a1, a2, a3, a4, b1, b2, c1, c2, rfl⟩
    · exact absurd h (by simp)
  · rintro ⟨post, y1, y2, y3, y4, m1, m2, d1, d2, a1, a2, a3, a4, b1, b2, c1, c2, rfl⟩
    simp [archiveAt, a1, a2, a3, a4, b1, b2, c1, c2]

theorem matchArchive_iff (path : String) :
    matchArchive path.toList = true ↔ hasArchiveSegment path := by
  unfold hasArchiveSegment
  generalize path.toList = t
  induction t with
  | nil =>
    simp only [matchArchive]
    constructor
    · intro h
      exact absurd h (by simp)
    · rintro ⟨pre, post, y1, y2, y3, y4, m1, m2, d1, d2, -, -, -, -, -, -, -, -, h⟩
      cases pre <;> simp at h
  | cons c cs ih =>
    simp only [matchArchive, Bool.or_eq_true, archiveAt_iff, ih]
    constructor
    · rintro (⟨post, y1, y2, y3, y4, m1, m2, d1, d2, a1, a2, a3, a4, b1, b2, c1, c2, h⟩ |
        ⟨pre, post, y1, y2, y3, y4, m1, m2, d1, d2, a1, a2, a3, a4, b1, b2, c1, c2, h⟩)
      · exact ⟨[], post, y1, y2, y3, y4, m1, m2, d1, d2, a1, a2, a3, a4, b1, b2, c1, c2,
          by simpa using h⟩
      · exact ⟨c :: pre, post, y1, y2, y3, y4, m1, m2, d1, d2, a1, a2, a3, a4, b1, b2, c1, c2,
          by simp [h]⟩
    · rintro ⟨pre, post, y1, y2, y3, y4, m1, m2, d1, d2, a1, a2, a3, a4, b1, b2, c1, c2, h⟩
      cases pre with
      | nil =>
        exact Or.inl ⟨post, y1, y2, y3, y4, m1, m2, d1, d2, a1, a2, a3, a4, b1, b2, c1, c2,
          by simpa using h⟩
      | cons a pre =>
        simp only [List.cons_append, List.cons.injEq] at h
        exact Or.inr ⟨pre, post, y1, y2, y3, y4, m1, m2, d1, d2, a1, a2, a3, a4, b1, b2, c1, c2,
          by simpa using h.2⟩

/-- C16: for every path visited without a traversal error, the walk callback of
`pickArticlefile` appends the path to `files` if and only if its extension is
`.md`, it contains none of the denylist substrings, and it contains a segment
`/dddd/dd/dd/`; otherwise `files` is left unchanged.  Hence a path without the
archive segment is never admitted, and a path containing a denylisted
substring is rejected even when it has the segment. -/
theorem pickArticlefile_admits (files denyList : List String) (path : String) :
    ((filepathExt path = ".md" ∧ (∀ d ∈ denyList, ¬ hasSubstring path d) ∧
          hasArchiveSegment path) →
        pickArticlefile files denyList path none = some (files ++ [path])) ∧
      (¬ (filepathExt path = ".md" ∧ (∀ d ∈ denyList, ¬ hasSubstring path d) ∧
          hasArchiveSegment path) →
        pickArticlefile files denyList path none = some files) ∧
      (¬ hasArchiveSegment path → pickArticlefile files denyList path none = some files) ∧
      (∀ d ∈ denyList, hasSubstring path d →
        pickArticlefile files denyList path none = some files) := by
  have hdeny : (denyList.any (fun denyItem => stringsContains path denyItem) = true) ↔
      ∃ d ∈ denyList, hasSubstring path d := by
    simp only [List.any_eq_true, stringsContains_iff]
  have harch := matchArchive_iff path
  have key : ¬ (filepathExt path = ".md" ∧ (∀ d ∈ denyList, ¬ hasSubstring path d) ∧
      hasArchiveSegment path) →
      pickArticlefile files denyList path none = some files := by
    intro hcond
    unfold pickArticlefile
    by_cases hext : filepathExt path = ".md"
    · by_cases hd : denyList.any (fun denyItem => stringsContains path denyItem) = true
      · simp [hext, hd]
      · by_cases hm : matchArchive path.toList = true
        · exfalso
          apply hcond
          refine ⟨hext, ?_, harch.mp hm⟩
          intro d hdm hsub
          exact hd (hdeny.mpr ⟨d, hdm, hsub⟩)
        · simp only [String.toList] at hm
          simp [hext, hd, hm]
    · simp [hext]
  refine ⟨?_, key, ?_, ?_⟩
  · rintro ⟨hext, hd, hm⟩
    have hd2 : ¬ (denyList.any (fun denyItem => stringsContains path denyItem) = true) := by
      rw [hdeny]
      rintro ⟨d, hdm, hsub⟩
      exact hd d hdm hsub
    have hm2 := harch.mpr hm
    simp only [String.toList] at hm2
    simp [pickArticlefile, hext, hd2, hm2]
  · intro h
    exact key (fun hc => h hc.2.2)
  · intro d hdm hsub
    exact key (fun hc => hc.2.1 d hdm hsub)

/-- Witness of C16: `/blog/2021/01/02/post.md` is admitted under the denylist
of `readMetaFiles`. -/
theorem pickArticlefile_admits_witness :
    pickArticlefile [] metaDenyList "/blog/2021/01/02/post.md" none =
      some ([] ++ ["/blog/2021/01/02/post.md"]) :=
  (pickArticlefile_admits [] metaDenyList "/blog/2021/01/02/post.md").1
    ⟨rfl,
      by
        intro d hd
        rw [← stringsContains_iff]
        revert d
        decide,
      ⟨"/blog".toList, "post.md".toList, '2', '0', '2', '1', '0', '1', '0', '2',
        by decide, by decide, by decide, by decide, by decide, by decide, by decide, by decide,
        rfl⟩⟩

/-- The callback on sample paths: a `README.md` inside the archive, a `.md`
file outside it and a `.txt` file inside it are rejected, and a traversal error
ends the run. -/
theorem pickArticlefile_samples :
    pickArticlefile ["a.md"] metaDenyList "/blog/2021/01/02/README.md" none = some ["a.md"] ∧
      pickArticlefile ["a.md"] metaDenyList "/blog/post.md" none = some ["a.md"] ∧
      pickArticlefile ["a.md"] metaDenyList "/blog/2021/01/02/post.txt" none = some ["a.md"] ∧
      pickArticlefile ["a.md"] metaDenyList "/blog/2021/01/02/post.md" (some "lstat") = none :=
  ⟨rfl, rfl, rfl, rfl⟩

/-! ## Claims on `calcTopN` -/

theorem toJSON_of_nonneg (rangeOrder : CountMap → List (String × Int))
    (sortSlice : (JSON → JSON → Bool) → List JSON → List JSON)
    (data : List String) (limit : Int) (h : 0 ≤ limit) :
    toJSON rangeOrder sortSlice data limit =
      Except.ok ((sortSlice lessByValue (keyCountsOf rangeOrder data)).take limit.toNat) := by
  have hlt : ¬ limit < 0 := not_lt.mpr h
  unfold toJSON arrayStats
  simp only [hlt, if_false]
  have hcopy : ∀ (topN acc : List JSON),
      topN.foldl (fun result num => result ++ [JSON.mk num.Name num.Value]) acc =
        acc ++ topN := by
    intro topN
    induction topN with
    | nil => intro acc; simp
    | cons x xs ih => intro acc; rw [List.foldl_cons, ih]; simp
  rw [hcopy]
  simp

theorem toJSON_of_neg (rangeOrder : CountMap → List (String × Int))
    (sortSlice : (JSON → JSON → Bool) → List JSON → List JSON)
    (data : List String) (limit : Int) (h : limit < 0) :
    toJSON rangeOrder sortSlice data limit = Except.error Fault.makesliceCap := by
  simp [toJSON, arrayStats, h]

theorem calcTopN_of_negative_limit (rangeOrder : CountMap → List (String × Int))
    (sortSlice : (JSON → JSON → Bool) → List JSON → List JSON) (curYear : Int)
    (tags categories years months days hours yearMonths weeks : List String)
    (hyear : curYear < 2007) :
    calcTopN rangeOrder sortSlice curYear tags categories years months days hours
      yearMonths weeks = Except.error Fault.makesliceCap := by
  simp only [calcTopN]
  rw [toJSON_of_nonneg rangeOrder sortSlice tags 30 (by decide),
    toJSON_of_nonneg rangeOrder sortSlice categories 10 (by decide),
    toJSON_of_neg rangeOrder sortSlice years (curYear - 2007) (by omega)]
  rfl

/-- C17: when the current year is below 2007, `calcTopN` does not return: the
limit `curYear - 2007` of the year ranking is negative and `toJSON` panics in
`arrayStats` at `make([]JSON, 0, limit)`. -/
theorem calcTopN_before_2007_faults (rangeOrder : CountMap → List (String × Int))
    (sortSlice : (JSON → JSON → Bool) → List JSON → List JSON) (curYear : Int)
    (tags categories years months days hours yearMonths weeks : List String)
    (hyear : curYear < 2007) :
    calcTopN rangeOrder sortSlice curYear tags categories years months days hours
      yearMonths weeks = Except.error Fault.makesliceCap :=
  calcTopN_of_negative_limit rangeOrder sortSlice curYear tags categories years months days
    hours yearMonths weeks hyear

/-- Witness of C17: the clock year 2006. -/
theorem calcTopN_before_2007_faults_witness :
    calcTopN id insertionSort 2006 [] [] ["2005", "2006"] ["01", "02"] ["03", "04"]
      ["10", "11"] ["2005-01", "2006-02"] ["周一", "周二"] = Except.error Fault.makesliceCap :=
  calcTopN_before_2007_faults id insertionSort 2006 [] [] ["2005", "2006"] ["01", "02"]
    ["03", "04"] ["10", "11"] ["2005-01", "2006-02"] ["周一", "周二"] (by decide)

/-- From the year 2007 on, `calcTopN` returns the eight rankings with the
limits tag 30, category 10, year `max(0, curYear - 2007)`, month 12, day 31,
hour 24, weekday 7 and year-month `12 * max(0, curYear - 2007)`. -/
theorem calcTopN_limits (rangeOrder : CountMap → List (String × Int))
    (sortSlice : (JSON → JSON → Bool) → List JSON → List JSON) (curYear : Int)
    (tags categories years months days hours yearMonths weeks : List String)
    (hyear : 2007 ≤ curYear) :
    ∃ resp : Response,
      calcTopN rangeOrder sortSlice curYear tags categories years months days hours
        yearMonths weeks = Except.ok resp ∧
      toJSON rangeOrder sortSlice tags 30 = Except.ok resp.Tag ∧
      toJSON rangeOrder sortSlice categories 10 = Except.ok resp.Category ∧
      toJSON rangeOrder sortSlice years (max 0 (curYear - 2007)) = Except.ok resp.Year ∧
      toJSON rangeOrder sortSlice months 12 = Except.ok resp.Month ∧
      toJSON rangeOrder sortSlice days 31 = Except.ok resp.Day ∧
      toJSON rangeOrder sortSlice hours 24 = Except.ok resp.Hour ∧
      toJSON rangeOrder sortSlice weeks 7 = Except.ok resp.Week ∧
      toJSON rangeOrder sortSlice yearMonths (12 * max 0 (curYear - 2007)) =
        Except.ok resp.YearAndMonth := by
  have hmax : max 0 (curYear - 2007) = curYear - 2007 := by omega
  have hmul : 12 * (curYear - 2007) = (curYear - 2007) * 12 := by ring
  rw [hmax, hmul]
  have h1 := toJSON_of_nonneg rangeOrder sortSlice tags 30 (by decide)
  have h2 := toJSON_of_nonneg rangeOrder sortSlice categories 10 (by decide)
  have h3 := toJSON_of_nonneg rangeOrder sortSlice years (curYear - 2007) (by omega)
  have h4 := toJSON_of_nonneg rangeOrder sortSlice months 12 (by decide)
  have h5 := toJSON_of_nonneg rangeOrder sortSlice days 31 (by decide)
  have h6 := toJSON_of_nonneg rangeOrder sortSlice hours 24 (by decide)
  have h7 := toJSON_of_nonneg rangeOrder sortSlice weeks 7 (by decide)
  have h8 := toJSON_of_nonneg rangeOrder sortSlice yearMonths ((curYear - 2007) * 12) (by omega)
  refine ⟨⟨_, _, _, _, _, _, _, _⟩, ?_, h1, h2, h3, h4, h5, h6, h7, h8⟩
  simp only [calcTopN]
  rw [h1, h2, h3, h4, h5, h6, h7, h8]
  rfl

/-! ## Claims on `relativeMetaFile` -/

theorem splitFrom_file (file before acc : List Char) (h : '/' ∉ file) :
    splitFrom (file.reverse ++ before) acc = splitFrom before (file ++ acc) := by
  induction file generalizing before acc with
  | nil => rfl
  | cons c cs ih =>
    have hc : c ≠ '/' := fun e => h (e ▸ List.mem_cons_self c cs)
    have hcs : '/' ∉ cs := fun e => h (List.mem_cons_of_mem c e)
    rw [List.reverse_cons, List.append_assoc, ih _ _ hcs]
    simp [splitFrom, hc]

theorem splitEach_append (sep : Char) (a b : List Char) :
    splitEach sep (a ++ sep :: b) = splitEach sep a ++ splitEach sep b := by
  induction a with
  | nil => simp [splitEach]
  | cons c cs ih =>
    have e : ∀ l : List Char, splitEach sep (c :: l) =
        if c = sep then [] :: splitEach sep l else consHead c (splitEach sep l) := fun l => rfl
    rw [List.cons_append, e, e, ih]
    by_cases hc : c = sep
    · simp [hc]
    · simp only [hc, if_false]
      cases hs : splitEach sep cs with
      | nil => exact absurd hs (splitEach_ne_nil sep cs)
      | cons piece pieces => rfl

theorem splitFrom_dir (dl file : List Char) (hdir : dl = [] ∨ ∃ d, dl = d ++ ['/'])
    (hfile : '/' ∉ file) : splitFrom (dl ++ file).reverse [] = (dl, file) := by
  rw [List.reverse_append, splitFrom_file file dl.reverse [] hfile, List.append_nil]
  rcases hdir with h | ⟨d, h⟩
  · subst h
    rfl
  · subst h
    simp [splitFrom]

theorem extFrom_md (bl : List Char) : extFrom (bl ++ ['.', 'm', 'd']).reverse [] = ['.', 'm', 'd'] := by
  simp [extFrom]

theorem cleanStep_empty (rooted : Bool) (out : List (List Char)) : cleanStep rooted out [] = out := by
  simp [cleanStep]

theorem filepathClean_double_slash (d f : List Char) :
    filepathClean (String.mk (d ++ '/' :: '/' :: f)) = filepathClean (String.mk (d ++ '/' :: f)) := by
  have hhead : (d ++ '/' :: '/' :: f).head? = (d ++ '/' :: f).head? := by
    cases d <;> rfl
  have hfold : ∀ rooted : Bool,
      (splitEach '/' (d ++ '/' :: '/' :: f)).foldl (cleanStep rooted) [] =
        (splitEach '/' (d ++ '/' :: f)).foldl (cleanStep rooted) [] := by
    intro rooted
    have e : splitEach '/' ('/' :: f) = [] :: splitEach '/' f := by simp [splitEach]
    rw [splitEach_append, splitEach_append, e, List.foldl_append, List.foldl_append,
      List.foldl_cons, cleanStep_empty]
  have hne1 : d ++ '/' :: '/' :: f ≠ [] := by simp
  have hne2 : d ++ '/' :: f ≠ [] := by simp
  simp only [filepathClean, String.toList, hne1, hne2, if_false, hhead, hfold]

theorem string_eq_mk (s : String) : s = String.mk s.toList := (string_mk_toList s).symm

/-- C18: for every content path `dir ++ base ++ ".md"`, where `dir` is empty or
ends with `/` and `base` is free of `/`, `relativeMetaFile` sets `directory` to
`dir` and `metaFile` to the cleaned path `dir ++ base ++ ".json"`, the same
directory and base name with the extension `.json`; this does not depend on
what `os.Stat` finds, which only decides the returned flag.  The base name may
even be empty. -/
theorem relativeMetaFile_sidecar (stat : String → Bool) (dir base : String)
    (hdir : dir = "" ∨ ∃ d : String, dir = d ++ "/") (hfree : '/' ∉ base.toList) :
    relativeMetaFile stat (dir ++ base ++ ".md") =
      (filepathClean (dir ++ base ++ ".json"), dir,
        stat (filepathClean (dir ++ base ++ ".json"))) := by
  have hdl : dir.toList = [] ∨ ∃ d, dir.toList = d ++ ['/'] := by
    rcases hdir with h | ⟨d, h⟩
    · left
      rw [h]
      rfl
    · right
      exact ⟨d.toList, by rw [h]; simp [String.toList, String.data_append]⟩
  have hfile : '/' ∉ base.toList ++ ['.', 'm', 'd'] := by
    simp only [List.mem_append, not_or]
    exact ⟨hfree, by decide⟩
  have hpath : (dir ++ base ++ ".md").toList = dir.toList ++ (base.toList ++ ['.', 'm', 'd']) := by
    simp [String.toList, String.data_append]
  have hsplit : filepathSplit (dir ++ base ++ ".md") = (dir, base ++ ".md") := by
    unfold filepathSplit
    rw [hpath, splitFrom_dir _ _ hdl hfile]
    simp only [string_mk_toList]
    congr 1
  have hext : filepathExt (base ++ ".md") = ".md" := by
    unfold filepathExt
    have : (base ++ ".md").toList = base.toList ++ ['.', 'm', 'd'] := by
      simp [String.toList, String.data_append]
    rw [this, extFrom_md]
  have htrim : trimSuffix (base ++ ".md") ".md" = base := by
    unfold trimSuffix
    have h1 : (base ++ ".md").toList = base.toList ++ ['.', 'm', 'd'] := by
      simp [String.toList, String.data_append]
    have h2 : (".md" : String).toList = ['.', 'm', 'd'] := rfl
    simp only [h1, h2, List.length_append, List.length_cons, List.length_nil]
    have h3 : base.toList.length + (0 + 1 + 1 + 1) - (0 + 1 + 1 + 1) = base.toList.length := by
      omega
    rw [h3, List.drop_left, List.take_left]
    simp [string_mk_toList]
  have hjoin : filepathJoin dir (base ++ ".json") = filepathClean (dir ++ base ++ ".json") := by
    unfold filepathJoin
    rcases hdir with h | ⟨d, h⟩
    · subst h
      have hne : base ++ ".json" ≠ "" := by
        intro e
        have := congrArg String.length e
        simp at this
        exact absurd this.2 (by decide)
      simp [hne]
    · have hne : dir ≠ "" := by
        intro e
        rw [h] at e
        have := congrArg String.length e
        simp at this
        exact absurd this.2 (by decide)
      simp only [hne, ne_eq, not_false_eq_true, if_true]
      subst h
      rw [string_eq_mk (d ++ "/" ++ "/" ++ (base ++ ".json")),
        string_eq_mk (d ++ "/" ++ base ++ ".json")]
      have e1 : (d ++ "/" ++ "/" ++ (base ++ ".json")).toList =
          d.toList ++ '/' :: '/' :: (base ++ ".json").toList := by
        simp [String.toList, String.data_append]
      have e2 : (d ++ "/" ++ base ++ ".json").toList =
          d.toList ++ '/' :: (base ++ ".json").toList := by
        simp [String.toList, String.data_append]
      rw [e1, e2, filepathClean_double_slash]
  simp only [relativeMetaFile, hsplit, hext, htrim, hjoin]

/-- Witness of C18 on `/blog/2021/01/02/post.md`, whose sidecar is
`/blog/2021/01/02/post.json`. -/
theorem relativeMetaFile_sidecar_witness :
    relativeMetaFile (fun _ => false) ("/blog/2021/01/02/" ++ "post" ++ ".md") =
        (filepathClean ("/blog/2021/01/02/" ++ "post" ++ ".json"), "/blog/2021/01/02/",
          (fun _ => false) (filepathClean ("/blog/2021/01/02/" ++ "post" ++ ".json"))) ∧
      filepathClean ("/blog/2021/01/02/" ++ "post" ++ ".json") = "/blog/2021/01/02/post.json" :=
  ⟨relativeMetaFile_sidecar (fun _ => false) "/blog/2021/01/02/" "post"
    (Or.inr ⟨"/blog/2021/01/02", rfl⟩) (by decide), by decide⟩

/-! ## Claims on the sequences of `concat` -/

theorem concatStep_cases (fs : String → Option (List UInt8))
    (unmarshal : List UInt8 → Option Meta) (acc acc1 : Facets) (metaPath : String)
    (h : concatStep fs unmarshal acc metaPath = Except.ok acc1) :
    acc1.tags = acc.tags ∧ acc1.categories = acc.categories ∧
      ((statusOf fs unmarshal metaPath = false ∧ acc1 = acc) ∨
        (statusOf fs unmarshal metaPath = true ∧
          ∃ f : DateFacets, dateFacetsOf fs unmarshal metaPath = some f ∧
            acc1.years = acc.years ++ [f.year] ∧ acc1.months = acc.months ++ [f.month] ∧
            acc1.days = acc.days ++ [f.day] ∧ acc1.hours = acc.hours ++ [f.hour] ∧
            acc1.yearMonths = acc.yearMonths ++ [f.yearMonth] ∧
            acc1.weeks = acc.weeks ++ [f.week])) := by
  cases hm : extractMeta unmarshal (readFile fs metaPath) with
  | error e =>
    simp only [concatStep, concatBody, hm, bind, Except.bind] at h
    exact Except.noConfusion h
  | ok r =>
    obtain ⟨isOk, dateStr, timeStr, tags, categories⟩ := r
    cases isOk with
    | false =>
      simp only [concatStep, concatBody, hm, bind, Except.bind, pure, Except.pure,
        Bool.false_eq_true, if_false, Except.ok.injEq] at h
      subst h
      simp [statusOf, hm]
    | true =>
      cases hd : extractDate dateStr timeStr with
      | error e =>
        simp only [concatStep, concatBody, hm, bind, Except.bind, pure, Except.pure, if_true,
          hd] at h
        exact Except.noConfusion h
      | ok d =>
        obtain ⟨year, month, day, hour, yearAndMonth⟩ := d
        simp only [concatStep, concatBody, hm, bind, Except.bind, pure, Except.pure, if_true,
          hd, Except.ok.injEq] at h
        subst h
        simp [statusOf, dateFacetsOf, hm, hd]

theorem foldlM_concatStep_tags (fs : String → Option (List UInt8))
    (unmarshal : List UInt8 → Option Meta) (metaFiles : List String) (acc res : Facets)
    (h : metaFiles.foldlM (concatStep fs unmarshal) acc = Except.ok res) :
    res.tags = acc.tags ∧ res.categories = acc.categories := by
  induction metaFiles generalizing acc with
  | nil =>
    simp only [List.foldlM_nil, pure, Except.pure, Except.ok.injEq] at h
    subst h
    exact ⟨rfl, rfl⟩
  | cons p rest ih =>
    rw [List.foldlM_cons] at h
    cases hs : concatStep fs unmarshal acc p with
    | error e =>
      rw [hs] at h
      exact Except.noConfusion h
    | ok acc1 =>
      rw [hs] at h
      have h1 := concatStep_cases fs unmarshal acc acc1 p hs
      have h2 := ih acc1 h
      exact ⟨h2.1.trans h1.1, h2.2.trans h1.2.1⟩

theorem foldlM_concatStep_dates (fs : String → Option (List UInt8))
    (unmarshal : List UInt8 → Option Meta) (metaFiles : List String) (acc res : Facets)
    (h : metaFiles.foldlM (concatStep fs unmarshal) acc = Except.ok res) :
    ∃ contributed : List DateFacets,
      (metaFiles.filter (statusOf fs unmarshal)).map (dateFacetsOf fs unmarshal) =
        contributed.map some ∧
      res.years = acc.years ++ contributed.map DateFacets.year ∧
      res.months = acc.months ++ contributed.map DateFacets.month ∧
      res.days = acc.days ++ contributed.map DateFacets.day ∧
      res.hours = acc.hours ++ contributed.map DateFacets.hour ∧
      res.yearMonths = acc.yearMonths ++ contributed.map DateFacets.yearMonth ∧
      res.weeks = acc.weeks ++ contributed.map DateFacets.week := by
  induction metaFiles generalizing acc with
  | nil =>
    simp only [List.foldlM_nil, pure, Except.pure, Except.ok.injEq] at h
    subst h
    exact ⟨[], by simp⟩
  | cons p rest ih =>
    rw [List.foldlM_cons] at h
    cases hs : concatStep fs unmarshal acc p with
    | error e =>
      rw [hs] at h
      exact Except.noConfusion h
    | ok acc1 =>
      rw [hs] at h
      obtain ⟨contributed, hc, hy, hmo, hd, hh, hym, hw⟩ := ih acc1 h
      rcases (concatStep_cases fs unmarshal acc acc1 p hs).2.2 with
        ⟨hst, heq⟩ | ⟨hst, f, hf, gy, gmo, gd, gh, gym, gw⟩
      · subst heq
        refine ⟨contributed, ?_, hy, hmo, hd, hh, hym, hw⟩
        simp only [List.filter_cons, hst, Bool.false_eq_true, if_false]
        exact hc
      · refine ⟨f :: contributed, ?_, ?_, ?_, ?_, ?_, ?_, ?_⟩
        · simp only [List.filter_cons, hst, if_true, List.map_cons, hf, hc]
        · rw [hy, gy]; simp
        · rw [hmo, gmo]; simp
        · rw [hd, gd]; simp
        · rw [hh, gh]; simp
        · rw [hym, gym]; simp
        · rw [hw, gw]; simp

/-- C19: each successfully parsed file contributes exactly one occurrence to
each date dimension.  For every list of sidecars on which `concat` does not
fault, the sequences `years`, `months`, `days`, `hours`, `yearMonths` and
`weeks` it returns all have the length of the list of sidecars for which
`extractMeta` returned `Status = true`, and the i-th element of each is the
value that the i-th such sidecar yields. -/
theorem concat_date_sequences (fs : String → Option (List UInt8))
    (unmarshal : List UInt8 → Option Meta) (metaFiles : List String) (res : Facets)
    (h : concat fs unmarshal metaFiles = Except.ok res) :
    ∃ contributed : List DateFacets,
      (metaFiles.filter (statusOf fs unmarshal)).map (dateFacetsOf fs unmarshal) =
        contributed.map some ∧
      res.years = contributed.map DateFacets.year ∧
      res.months = contributed.map DateFacets.month ∧
      res.days = contributed.map DateFacets.day ∧
      res.hours = contributed.map DateFacets.hour ∧
      res.yearMonths = contributed.map DateFacets.yearMonth ∧
      res.weeks = contributed.map DateFacets.week ∧
      res.years.length = (metaFiles.filter (statusOf fs unmarshal)).length ∧
      res.months.length = (metaFiles.filter (statusOf fs unmarshal)).length ∧
      res.days.length = (metaFiles.filter (statusOf fs unmarshal)).length ∧
      res.hours.length = (metaFiles.filter (statusOf fs unmarshal)).length ∧
      res.yearMonths.length = (metaFiles.filter (statusOf fs unmarshal)).length ∧
      res.weeks.length = (metaFiles.filter (statusOf fs unmarshal)).length := by
  obtain ⟨contributed, hc, hy, hmo, hd, hh, hym, hw⟩ :=
    foldlM_concatStep_dates fs unmarshal metaFiles Facets.empty res h
  have hlen : contributed.length = (metaFiles.filter (statusOf fs unmarshal)).length := by
    have := congrArg List.length hc
    simpa using this.symm
  simp only [Facets.empty, List.nil_append] at hy hmo hd hh hym hw
  refine ⟨contributed, hc, hy, hmo, hd, hh, hym, hw, ?_, ?_, ?_, ?_, ?_, ?_⟩
  · rw [hy, List.length_map, hlen]
  · rw [hmo, List.length_map, hlen]
  · rw [hd, List.length_map, hlen]
  · rw [hh, List.length_map, hlen]
  · rw [hym, List.length_map, hlen]
  · rw [hw, List.length_map, hlen]

/-- Witness of C19: the sample archive read through `p1.json`, the missing
`p7.json`, the non-JSON `p8.json` and `p3.json`. -/
theorem concat_date_sequences_witness :
    ∃ contributed : List DateFacets,
      (["p1.json", "p7.json", "p8.json", "p3.json"].filter
          (statusOf (tableFS sampleFS) (tableUnmarshal sampleTexts))).map
          (dateFacetsOf (tableFS sampleFS) (tableUnmarshal sampleTexts)) =
        contributed.map some ∧
      ["2021", "2021"] = contributed.map DateFacets.year ∧
      ["01", "02"] = contributed.map DateFacets.month ∧
      ["04", "06"] = contributed.map DateFacets.day ∧
      ["10", "12"] = contributed.map DateFacets.hour ∧
      ["2021-01", "2021-02"] = contributed.map DateFacets.yearMonth ∧
      ["周一", "周六"] = contributed.map DateFacets.week ∧
      ["2021", "2021"].length = (["p1.json", "p7.json", "p8.json", "p3.json"].filter
        (statusOf (tableFS sampleFS) (tableUnmarshal sampleTexts))).length ∧
      ["01", "02"].length = (["p1.json", "p7.json", "p8.json", "p3.json"].filter
        (statusOf (tableFS sampleFS) (tableUnmarshal sampleTexts))).length ∧
      ["04", "06"].length = (["p1.json", "p7.json", "p8.json", "p3.json"].filter
        (statusOf (tableFS sampleFS) (tableUnmarshal sampleTexts))).length ∧
      ["10", "12"].length = (["p1.json", "p7.json", "p8.json", "p3.json"].filter
        (statusOf (tableFS sampleFS) (tableUnmarshal sampleTexts))).length ∧
      ["2021-01", "2021-02"].length = (["p1.json", "p7.json", "p8.json", "p3.json"].filter
        (statusOf (tableFS sampleFS) (tableUnmarshal sampleTexts))).length ∧
      ["周一", "周六"].length = (["p1.json", "p7.json", "p8.json", "p3.json"].filter
        (statusOf (tableFS sampleFS) (tableUnmarshal sampleTexts))).length :=
  concat_date_sequences (tableFS sampleFS) (tableUnmarshal sampleTexts)
    ["p1.json", "p7.json", "p8.json", "p3.json"]
    { tags := []
      categories := []
      years := ["2021", "2021"]
      months := ["01", "02"]
      days := ["04", "06"]
      hours := ["10", "12"]
      yearMonths := ["2021-01", "2021-02"]
      weeks := ["周一", "周六"] } rfl

theorem toJSON_nil (rangeOrder : CountMap → List (String × Int))
    (sortSlice : (JSON → JSON → Bool) → List JSON → List JSON)
    (hrange : RangeContract rangeOrder) (hsort : SortContract sortSlice) (limit : Int)
    (hlimit : 0 ≤ limit) : toJSON rangeOrder sortSlice [] limit = Except.ok [] := by
  rw [toJSON_of_nonneg rangeOrder sortSlice [] limit hlimit]
  have h0 : rangeOrder (countKeys []) = [] := List.Perm.eq_nil (hrange (countKeys []))
  have h1 : keyCountsOf rangeOrder [] = [] := by
    unfold keyCountsOf
    rw [h0]
    rfl
  rw [h1, List.Perm.eq_nil (hsort []).1, List.take_nil]

/-- C20: for every list of sidecars on which `concat` does not fault, the
`tags` and `categories` sequences it returns are empty, whatever the sidecars
carry: the per-file values live in loop-local variables that shadow the named
results.  Hence the `byTag` and `byCategory` rankings that `calcTopN` computes
from them have no entries. -/
theorem concat_tags_categories_empty (fs : String → Option (List UInt8))
    (unmarshal : List UInt8 → Option Meta) (metaFiles : List String) (res : Facets)
    (h : concat fs unmarshal metaFiles = Except.ok res) :
    res.tags = [] ∧ res.categories = [] ∧
      ∀ (rangeOrder : CountMap → List (String × Int))
        (sortSlice : (JSON → JSON → Bool) → List JSON → List JSON),
        RangeContract rangeOrder → SortContract sortSlice →
        ∀ (curYear : Int) (resp : Response),
          calcTopN rangeOrder sortSlice curYear res.tags res.categories res.years res.months
            res.days res.hours res.yearMonths res.weeks = Except.ok resp →
          resp.Tag = [] ∧ resp.Category = [] := by
  obtain ⟨ht, hc⟩ := foldlM_concatStep_tags fs unmarshal metaFiles Facets.empty res h
  have ht2 : res.tags = [] := ht
  have hc2 : res.categories = [] := hc
  refine ⟨ht2, hc2, ?_⟩
  intro rangeOrder sortSlice hrange hsort curYear resp hcalc
  rw [ht2, hc2] at hcalc
  by_cases hy : 2007 ≤ curYear
  · obtain ⟨resp1, h0, h1, h2, -⟩ := calcTopN_limits rangeOrder sortSlice curYear [] []
      res.years res.months res.days res.hours res.yearMonths res.weeks hy
    rw [h0] at hcalc
    have he : resp1 = resp := by
      injection hcalc
    subst he
    rw [toJSON_nil rangeOrder sortSlice hrange hsort 30 (by decide)] at h1
    rw [toJSON_nil rangeOrder sortSlice hrange hsort 10 (by decide)] at h2
    constructor
    · injection h1 with h1
      exact h1.symm
    · injection h2 with h2
      exact h2.symm
  · rw [calcTopN_of_negative_limit rangeOrder sortSlice curYear [] [] res.years res.months
      res.days res.hours res.yearMonths res.weeks (by omega)] at hcalc
    exact Except.noConfusion hcalc

/-- Witness of C20: the six sample sidecars carry the tags `a, a, b, c, c, c`,
and neither the sequences of `concat` nor the rankings of `calcTopN` in the
year 2026 hold any of them. -/
theorem concat_tags_categories_empty_witness :
    ([] : List String) = [] ∧ ([] : List String) = [] ∧
      ∀ (rangeOrder : CountMap → List (String × Int))
        (sortSlice : (JSON → JSON → Bool) → List JSON → List JSON),
        RangeContract rangeOrder → SortContract sortSlice →
        ∀ (curYear : Int) (resp : Response),
          calcTopN rangeOrder sortSlice curYear [] []
            ["2021", "2021", "2021", "2021", "2022", "2022"]
            ["01", "01", "02", "02", "03", "03"]
            ["04", "05", "06", "07", "08", "09"]
            ["10", "11", "12", "13", "14", "15"]
            ["2021-01", "2021-01", "2021-02", "2021-02", "2022-03", "2022-03"]
            ["周一", "周二", "周六", "周日", "周二", "周三"] = Except.ok resp →
          resp.Tag = [] ∧ resp.Category = [] :=
  concat_tags_categories_empty (tableFS sampleFS) (tableUnmarshal sampleTexts)
    ["p1.json", "p2.json", "p3.json", "p4.json", "p5.json", "p6.json"]
    { tags := []
      categories := []
      years := ["2021", "2021", "2021", "2021", "2022", "2022"]
      months := ["01", "01", "02", "02", "03", "03"]
      days := ["04", "05", "06", "07", "08", "09"]
      hours := ["10", "11", "12", "13", "14", "15"]
      yearMonths := ["2021-01", "2021-01", "2021-02", "2021-02", "2022-03", "2022-03"]
      weeks := ["周一", "周二", "周六", "周日", "周二", "周三"] } rfl

end Stats
